import Mathlib

/-!
Verification of the lingocare-frontend incremental-ingestion core.

This file gives a shallow embedding, in Lean 4, of the parts of the
repository that the specification's testable properties talk about:

* the curriculum data model and the reducer `curriculumReducer`
  (src/context/CurriculumContext.tsx),
* the incremental JSON extractor `extractCompleteModules`, the
  full-document parser `parseCompleteJSON` and the progress heuristic
  `estimateProgress` (src/utils/incrementalParser.ts),
* the SSE read loop of `generateCurriculumStream` (src/services/api.ts).

JavaScript impurities are made explicit: `generateId()` becomes a string
parameter threaded to the reducer, `Date.now()` becomes a natural-number
parameter of the extractor, `JSON.parse` becomes an executable JSON
parser returning `Option Json` (exceptions become `none`).
-/

namespace LingoCare

/-! ## JSON values and a model of JSON.parse -/

/-- Parsed JSON values.  Numbers keep their source lexeme: no claim in
this development compares numbers across differently written literals. -/
inductive Json where
  | null : Json
  | bool (b : Bool) : Json
  | num (lexeme : String) : Json
  | str (s : String) : Json
  | arr (items : List Json) : Json
  | obj (fields : List (String × Json)) : Json

/-- JavaScript object field insertion: a repeated key overwrites the
value in place (keeping the first position), otherwise the field is
appended — the behaviour of `JSON.parse` on duplicate keys. -/
def insertField (fields : List (String × Json)) (k : String) (v : Json) :
    List (String × Json) :=
  match fields with
  | [] => [(k, v)]
  | (k', v') :: rest =>
      if k' = k then (k', v) :: rest else (k', v') :: insertField rest k v

/-- First-match field lookup (JavaScript property access on a parsed
object; `insertField` keeps keys unique, so first match is the match). -/
def getField : List (String × Json) → String → Option Json
  | [], _ => none
  | (k', v) :: rest, k => if k' = k then some v else getField rest k

/-- Whitespace accepted between JSON tokens (RFC 8259, as implemented by
`JSON.parse`): space, tab, line feed, carriage return. -/
def isJsonWs (c : Char) : Bool :=
  c = ' ' ∨ c = '\t' ∨ c = '\n' ∨ c = '\r'

/-- Decimal digit test. -/
def isDigitCh (c : Char) : Bool := '0' ≤ c ∧ c ≤ '9'

/-- Hexadecimal digit test. -/
def isHexCh (c : Char) : Bool :=
  isDigitCh c ∨ ('a' ≤ c ∧ c ≤ 'f') ∨ ('A' ≤ c ∧ c ≤ 'F')

/-- Numeric value of a hexadecimal digit. -/
def hexVal (c : Char) : Nat :=
  if isDigitCh c then c.toNat - '0'.toNat
  else if 'a' ≤ c ∧ c ≤ 'f' then c.toNat - 'a'.toNat + 10
  else c.toNat - 'A'.toNat + 10

/-- Skip JSON whitespace. -/
def skipJsonWs : List Char → List Char
  | [] => []
  | c :: cs => if isJsonWs c then skipJsonWs cs else c :: cs

/-- Parse the body of a JSON string literal (the opening quote already
consumed).  Returns the decoded text and the input after the closing
quote.  `\uXXXX` escapes decode to the corresponding code unit (mapped
through `Char.ofNat`). -/
def parseStringBody (fuel : Nat) (cs : List Char) : Option (String × List Char) :=
  match fuel with
  | 0 => none
  | fuel + 1 =>
    match cs with
    | [] => none
    | '"' :: rest => some ("", rest)
    | '\\' :: e :: rest =>
        (match e with
         | '"' => parseStringBody fuel rest |>.map fun (s, r) => ("\"" ++ s, r)
         | '\\' => parseStringBody fuel rest |>.map fun (s, r) => ("\\" ++ s, r)
         | '/' => parseStringBody fuel rest |>.map fun (s, r) => ("/" ++ s, r)
         | 'b' => parseStringBody fuel rest |>.map fun (s, r) => (String.mk ['\x08'] ++ s, r)
         | 'f' => parseStringBody fuel rest |>.map fun (s, r) => (String.mk ['\x0c'] ++ s, r)
         | 'n' => parseStringBody fuel rest |>.map fun (s, r) => ("\n" ++ s, r)
         | 'r' => parseStringBody fuel rest |>.map fun (s, r) => ("\r" ++ s, r)
         | 't' => parseStringBody fuel rest |>.map fun (s, r) => ("\t" ++ s, r)
         | 'u' =>
             match rest with
             | h1 :: h2 :: h3 :: h4 :: rest' =>
                 if isHexCh h1 ∧ isHexCh h2 ∧ isHexCh h3 ∧ isHexCh h4 then
                   let n := ((hexVal h1 * 16 + hexVal h2) * 16 +
                              hexVal h3) * 16 + hexVal h4
                   parseStringBody fuel rest' |>.map fun (s, r) =>
                     (String.mk [Char.ofNat n] ++ s, r)
                 else none
             | _ => none
         | _ => none)
    | '\\' :: [] => none
    | c :: rest =>
        if c.val < 0x20 then none
        else parseStringBody fuel rest |>.map fun (s, r) => (String.mk [c] ++ s, r)

/-- Greedily take characters satisfying `p`, returning them and the rest. -/
def spanChars (p : Char → Bool) : List Char → List Char × List Char
  | [] => ([], [])
  | c :: cs =>
      if p c then
        let (tk, rest) := spanChars p cs
        (c :: tk, rest)
      else ([], c :: cs)

/-- Parse a JSON number starting at `cs` (first character already known
to be `-` or a digit).  Returns the lexeme and the remaining input.
Grammar: `-? int frac? exp?` with `int = 0 | [1-9][0-9]*`. -/
def parseNumber (cs : List Char) : Option (String × List Char) :=
  let (sign, cs1) :=
    match cs with
    | '-' :: rest => (['-'], rest)
    | _ => (([] : List Char), cs)
  match cs1 with
  | [] => none
  | d :: _ =>
    if ¬ isDigitCh d then none
    else
      let (intPart, cs2) := spanChars isDigitCh cs1
      -- leading-zero rule: "0" alone, or a nonzero first digit
      if intPart.length > 1 ∧ d = '0' then none
      else
        let (fracPart, cs3) :=
          match cs2 with
          | '.' :: rest =>
              let (ds, r) := spanChars isDigitCh rest
              if ds = [] then (none, cs2) else (some ('.' :: ds), r)
          | _ => (none, cs2)
        match fracPart with
        | none =>
          match cs2 with
          | '.' :: _ => none
          | _ =>
            let (expPart, cs4) :=
              match cs3 with
              | e :: rest =>
                  if e = 'e' ∨ e = 'E' then
                    let (sgn, r1) :=
                      match rest with
                      | s :: r => if s = '+' ∨ s = '-' then ([s], r) else (([] : List Char), rest)
                      | [] => (([] : List Char), rest)
                    let (ds, r2) := spanChars isDigitCh r1
                    if ds = [] then (none, cs3) else (some (e :: sgn ++ ds), r2)
                  else (none, cs3)
              | [] => (none, cs3)
            match expPart with
            | none =>
                match cs3 with
                | e :: _ =>
                    if e = 'e' ∨ e = 'E' then none
                    else some (String.mk (sign ++ intPart), cs3)
                | [] => some (String.mk (sign ++ intPart), cs3)
            | some ex => some (String.mk (sign ++ intPart ++ ex), cs4)
        | some fr =>
            let (expPart, cs4) :=
              match cs3 with
              | e :: rest =>
                  if e = 'e' ∨ e = 'E' then
                    let (sgn, r1) :=
                      match rest with
                      | s :: r => if s = '+' ∨ s = '-' then ([s], r) else (([] : List Char), rest)
                      | [] => (([] : List Char), rest)
                    let (ds, r2) := spanChars isDigitCh r1
                    if ds = [] then (none, cs3) else (some (e :: sgn ++ ds), r2)
                  else (none, cs3)
              | [] => (none, cs3)
            match expPart with
            | none =>
                match cs3 with
                | e :: _ =>
                    if e = 'e' ∨ e = 'E' then none
                    else some (String.mk (sign ++ intPart ++ fr), cs3)
                | [] => some (String.mk (sign ++ intPart ++ fr), cs3)
            | some ex => some (String.mk (sign ++ intPart ++ fr ++ ex), cs4)

mutual

/-- Parse one JSON value at the head of the input (leading whitespace
allowed).  Returns the value and the unconsumed input. -/
def parseValue (fuel : Nat) (cs : List Char) : Option (Json × List Char) :=
  match fuel with
  | 0 => none
  | fuel + 1 =>
    match skipJsonWs cs with
    | [] => none
    | c :: rest =>
      match c with
      | 'n' =>
          match rest with
          | 'u' :: 'l' :: 'l' :: r => some (Json.null, r)
          | _ => none
      | 't' =>
          match rest with
          | 'r' :: 'u' :: 'e' :: r => some (Json.bool true, r)
          | _ => none
      | 'f' =>
          match rest with
          | 'a' :: 'l' :: 's' :: 'e' :: r => some (Json.bool false, r)
          | _ => none
      | '"' =>
          parseStringBody rest.length rest |>.map fun (s, r) => (Json.str s, r)
      | '[' => parseArrayItems fuel rest true []
      | '{' => parseObjectFields fuel rest true []
      | _ =>
          if c = '-' ∨ isDigitCh c then
            parseNumber (c :: rest) |>.map fun (lx, r) => (Json.num lx, r)
          else none

/-- Parse the items of an array after `[` (or after a comma).  `first`
is true when no item has been consumed yet. -/
def parseArrayItems (fuel : Nat) (cs : List Char) (first : Bool)
    (acc : List Json) : Option (Json × List Char) :=
  match fuel with
  | 0 => none
  | fuel + 1 =>
    match skipJsonWs cs with
    | [] => none
    | c :: rest =>
      if c = ']' ∧ first then some (Json.arr acc.reverse, rest)
      else
        match parseValue fuel (c :: rest) with
        | none => none
        | some (v, r1) =>
          match skipJsonWs r1 with
          | ',' :: r2 => parseArrayItems fuel r2 false (v :: acc)
          | ']' :: r2 => some (Json.arr (v :: acc).reverse, r2)
          | _ => none

/-- Parse the fields of an object after `{` (or after a comma). -/
def parseObjectFields (fuel : Nat) (cs : List Char) (first : Bool)
    (acc : List (String × Json)) : Option (Json × List Char) :=
  match fuel with
  | 0 => none
  | fuel + 1 =>
    match skipJsonWs cs with
    | [] => none
    | c :: rest =>
      if c = '}' ∧ first then some (Json.obj acc, rest)
      else
        match skipJsonWs (c :: rest) with
        | '"' :: r0 =>
          match parseStringBody r0.length r0 with
          | none => none
          | some (k, r1) =>
            match skipJsonWs r1 with
            | ':' :: r2 =>
              match parseValue fuel r2 with
              | none => none
              | some (v, r3) =>
                match skipJsonWs r3 with
                | ',' :: r4 => parseObjectFields fuel r4 false (insertField acc k v)
                | '}' :: r4 => some (Json.obj (insertField acc k v), r4)
                | _ => none
            | _ => none
        | _ => none

end

/-- The model of `JSON.parse`: parse one value and require that only
whitespace follows; `none` models a thrown `SyntaxError`. -/
def jsonParse (s : String) : Option Json :=
  match parseValue (s.length + 1) s.data with
  | none => none
  | some (v, rest) => if skipJsonWs rest = [] then some v else none

/-- Variant of `jsonParse` on a string given as a character list. -/
def jsonParseChars (cs : List Char) : Option Json :=
  jsonParse (String.mk cs)

/-! ## Curriculum data model (src/types/curriculum.types.ts) -/

/-- A lesson: leaf of the curriculum tree. -/
structure Lesson where
  id : String
  title : String
  description : String
  deriving DecidableEq

/-- A topic: owns an ordered list of lessons. -/
structure Topic where
  id : String
  title : String
  description : String
  lessons : List Lesson
  deriving DecidableEq

/-- A module: owns an ordered list of topics. -/
structure Module where
  id : String
  title : String
  description : String
  topics : List Topic
  deriving DecidableEq

/-- The curriculum root: owns an ordered list of modules. -/
structure Curriculum where
  id : String
  title : String
  description : String
  modules : List Module
  deriving DecidableEq

/-- The reducer's action type (curriculum.types.ts `CurriculumAction`,
plus the two streaming actions handled by the reducer).  Optional
payload fields (`title?`, `description?`) become `Option String`. -/
inductive CurriculumAction where
  | setCurriculum (payload : Curriculum)
  | resetForProgressive
  | addProgressiveModule (payload : Module)
  | updateCurriculumTitle (payload : String)
  | updateCurriculumDescription (payload : String)
  | addModule
  | updateModule (moduleId : String) (title? description? : Option String)
  | deleteModule (payload : String)
  | addTopic (payload : String)
  | updateTopic (moduleId topicId : String) (title? description? : Option String)
  | deleteTopic (moduleId topicId : String)
  | addLesson (moduleId topicId : String)
  | updateLesson (moduleId topicId lessonId : String) (title? description? : Option String)
  | deleteLesson (moduleId topicId lessonId : String)
  deriving DecidableEq

/-- Model of `curriculumReducer` from src/context/CurriculumContext.tsx.  The
impure `generateId()` is passed in as `gid` (used by the at-most-one
entity-creating case of each action).  Spread-merges
`...(payload.title !== undefined && { title: payload.title })` become
`Option.getD`. -/
def curriculumReducer (gid : String) (state : Curriculum)
    (action : CurriculumAction) : Curriculum :=
  match action with
  | .setCurriculum payload => payload
  | .resetForProgressive =>
      -- { ...initialCurriculum, id: generateId() }
      { id := gid, title := "", description := "", modules := [] }
  | .addProgressiveModule payload =>
      { state with modules := state.modules ++ [payload] }
  | .updateCurriculumTitle payload => { state with title := payload }
  | .updateCurriculumDescription payload => { state with description := payload }
  | .addModule =>
      let newModule : Module :=
        { id := gid
          title := "Module " ++ toString (state.modules.length + 1)
          description := ""
          topics := [] }
      { state with modules := state.modules ++ [newModule] }
  | .updateModule moduleId title? description? =>
      { state with
          modules := state.modules.map fun m =>
            if m.id = moduleId then
              { m with title := title?.getD m.title,
                       description := description?.getD m.description }
            else m }
  | .deleteModule payload =>
      { state with modules := state.modules.filter fun m => m.id ≠ payload }
  | .addTopic payload =>
      { state with
          modules := state.modules.map fun m =>
            if m.id = payload then
              let newTopic : Topic :=
                { id := gid
                  title := "Topic " ++ toString (m.topics.length + 1)
                  description := ""
                  lessons := [] }
              { m with topics := m.topics ++ [newTopic] }
            else m }
  | .updateTopic moduleId topicId title? description? =>
      { state with
          modules := state.modules.map fun m =>
            if m.id = moduleId then
              { m with
                  topics := m.topics.map fun t =>
                    if t.id = topicId then
                      { t with title := title?.getD t.title,
                               description := description?.getD t.description }
                    else t }
            else m }
  | .deleteTopic moduleId topicId =>
      { state with
          modules := state.modules.map fun m =>
            if m.id = moduleId then
              { m with topics := m.topics.filter fun t => t.id ≠ topicId }
            else m }
  | .addLesson moduleId topicId =>
      { state with
          modules := state.modules.map fun m =>
            if m.id = moduleId then
              { m with
                  topics := m.topics.map fun t =>
                    if t.id = topicId then
                      let newLesson : Lesson :=
                        { id := gid
                          title := "Lesson " ++ toString (t.lessons.length + 1)
                          description := "" }
                      { t with lessons := t.lessons ++ [newLesson] }
                    else t }
            else m }
  | .updateLesson moduleId topicId lessonId title? description? =>
      { state with
          modules := state.modules.map fun m =>
            if m.id = moduleId then
              { m with
                  topics := m.topics.map fun t =>
                    if t.id = topicId then
                      { t with
                          lessons := t.lessons.map fun l =>
                            if l.id = lessonId then
                              { l with title := title?.getD l.title,
                                       description := description?.getD l.description }
                            else l }
                    else t }
            else m }
  | .deleteLesson moduleId topicId lessonId =>
      { state with
          modules := state.modules.map fun m =>
            if m.id = moduleId then
              { m with
                  topics := m.topics.map fun t =>
                    if t.id = topicId then
                      { t with lessons := t.lessons.filter fun l => l.id ≠ lessonId }
                    else t }
            else m }

/-! ## Reducer claims: helper predicates and lemmas -/

/-- No module of the tree carries identifier `mid`. -/
def moduleIdAbsent (c : Curriculum) (mid : String) : Prop :=
  ∀ m ∈ c.modules, m.id ≠ mid

/-- No topic anywhere in the tree carries identifier `tid`. -/
def topicIdAbsent (c : Curriculum) (tid : String) : Prop :=
  ∀ m ∈ c.modules, ∀ t ∈ m.topics, t.id ≠ tid

/-- No lesson anywhere in the tree carries identifier `lid`. -/
def lessonIdAbsent (c : Curriculum) (lid : String) : Prop :=
  ∀ m ∈ c.modules, ∀ t ∈ m.topics, ∀ l ∈ t.lessons, l.id ≠ lid

/-- The update/delete intents whose targeted identifier — or an ancestor
identifier on the targeted path — does not occur in the tree. -/
def targetsMissing (c : Curriculum) : CurriculumAction → Prop
  | .updateModule mid _ _ => moduleIdAbsent c mid
  | .deleteModule mid => moduleIdAbsent c mid
  | .updateTopic mid tid _ _ => moduleIdAbsent c mid ∨ topicIdAbsent c tid
  | .deleteTopic mid tid => moduleIdAbsent c mid ∨ topicIdAbsent c tid
  | .updateLesson mid tid lid _ _ =>
      moduleIdAbsent c mid ∨ topicIdAbsent c tid ∨ lessonIdAbsent c lid
  | .deleteLesson mid tid lid =>
      moduleIdAbsent c mid ∨ topicIdAbsent c tid ∨ lessonIdAbsent c lid
  | _ => False

/-- Sub-module-level deletions: the "deletions elsewhere in the tree"
that do not touch the module list itself. -/
def isSubDeletion : CurriculumAction → Prop
  | .deleteTopic _ _ => True
  | .deleteLesson _ _ _ => True
  | _ => False

/-- Apply a list of (generated-id, action) pairs left to right through
the reducer. -/
def applyActions (steps : List (String × CurriculumAction)) (c : Curriculum) :
    Curriculum :=
  steps.foldl (fun st p => curriculumReducer p.1 st p.2) c

/-! ## Incremental extractor (src/utils/incrementalParser.ts) -/

/-- Parse state threaded between calls of `extractCompleteModules`. -/
structure ParseState where
  completeModules : List Json
  lastParsedIndex : Nat

/-- The default initial parse state. -/
def initialParseState : ParseState := ⟨[], 0⟩

/-- Whitespace matched by the JavaScript regex class `\s`. -/
def isJsWs (c : Char) : Bool :=
  c = ' ' ∨ c = '\t' ∨ c = '\n' ∨ c = '\r' ∨ c.val = 0x0b ∨ c.val = 0x0c ∨
    c.val = 0xa0 ∨ c.val = 0x1680 ∨ (0x2000 ≤ c.val ∧ c.val ≤ 0x200a) ∨
    c.val = 0x2028 ∨ c.val = 0x2029 ∨ c.val = 0x202f ∨ c.val = 0x205f ∨
    c.val = 0x3000 ∨ c.val = 0xfeff

/-- Length of the leading `\s*` run. -/
def countJsWs : List Char → Nat
  | [] => 0
  | c :: cs => if isJsWs c then countJsWs cs + 1 else 0

/-- The literal `"modules"` (quotes included) of the marker regex. -/
def markerLit : List Char := ['"', 'm', 'o', 'd', 'u', 'l', 'e', 's', '"']

/-- Match the regex `"modules"\s*:\s*\[` at the head of `cs`; returns the
length of the match.  (`\s*` greedily takes the maximal whitespace run —
backtracking into the run can never reach `:` or `[`, which are not
whitespace, so greedy-with-backtracking equals maximal-run.) -/
def matchMarkerAt (cs : List Char) : Option Nat :=
  if cs.take 9 = markerLit then
    match (cs.drop 9).drop (countJsWs (cs.drop 9)) with
    | ':' :: r2 =>
        match r2.drop (countJsWs r2) with
        | '[' :: _ => some (9 + countJsWs (cs.drop 9) + 1 + countJsWs r2 + 1)
        | _ => none
    | _ => none
  else none

/-- Leftmost match of the marker regex: returns
`match.index + match[0].length`, i.e. the index just past the `[` —
the `modulesStartIndex` of the source. -/
def findMarkerFrom : List Char → Nat → Option Nat
  | [], _ => none
  | c :: rest, i =>
      match matchMarkerAt (c :: rest) with
      | some len => some (i + len)
      | none => findMarkerFrom rest (i + 1)

/-- Model of `partialJSON.match(/"modules"\s*:\s*\[/)`: the start index of
the remaining text after the match. -/
def findMarker (cs : List Char) : Option Nat := findMarkerFrom cs 0

/-- Model of `remainingJSON.substring(s, e)` for `s ≤ e` (the extractor
only ever slices with `currentModuleStart ≤ i + 1`). -/
def subSlice (cs : List Char) (s e : Nat) : List Char :=
  (cs.drop s).take (e - s)

/-- The extractor's per-character scanner state: brace depth (a
JavaScript number — it can go negative), the string-literal flag, the
one-character escape lookahead, and `currentModuleStart` (`none` models
`-1`). -/
structure ScanSt where
  depth : Int
  inString : Bool
  escapeNext : Bool
  start : Option Nat

/-- Scanner state at loop entry and right after each accepted module. -/
def zeroScanSt : ScanSt := ⟨0, false, false, none⟩

/-- Value of `inString` after processing character `c`:
`if (char === '"' && !escapeNext) inString = !inString`. -/
def nextStr (c : Char) (st : ScanSt) : Bool :=
  if c = '"' ∧ ¬ st.escapeNext then ¬ st.inString else st.inString

/-- Value of `escapeNext = char === '\\' && !escapeNext`. -/
def nextEsc (c : Char) (st : ScanSt) : Bool :=
  c = '\\' ∧ ¬ st.escapeNext

/-- The character loop of `extractCompleteModules`, generic in the
candidate parser (instantiated with `jsonParseChars`): `rem` is the
text after the marker, `cs` the unprocessed suffix `rem.drop i`, `lpi`
the current `lastParsedIndex`.  Returns the parsed candidates in order,
the final `lastParsedIndex`, and — for the scan-composition lemmas —
`some` final state on normal exit, `none` when the loop exited through
`break` (a candidate substring failed to parse). -/
def scanGo (parse : List Char → Option Json) (rem : List Char) :
    List Char → Nat → ScanSt → Nat → List Json × Nat × Option ScanSt
  | [], _, st, lpi => ([], lpi, some st)
  | c :: cs, i, st, lpi =>
    if nextStr c st then
      scanGo parse rem cs (i + 1) ⟨st.depth, nextStr c st, nextEsc c st, st.start⟩ lpi
    else if c = '{' then
      scanGo parse rem cs (i + 1)
        ⟨st.depth + 1, nextStr c st, nextEsc c st,
          if st.depth = 0 then some i else st.start⟩ lpi
    else if c = '}' then
      match st.start with
      | some s =>
          if st.depth - 1 = 0 then
            match parse (subSlice rem s (i + 1)) with
            | some m =>
                let (ms, l, e) :=
                  scanGo parse rem cs (i + 1) ⟨0, nextStr c st, nextEsc c st, none⟩ (i + 1)
                (m :: ms, l, e)
            | none => ([], lpi, none)
          else
            scanGo parse rem cs (i + 1)
              ⟨st.depth - 1, nextStr c st, nextEsc c st, st.start⟩ lpi
      | none =>
          scanGo parse rem cs (i + 1)
            ⟨st.depth - 1, nextStr c st, nextEsc c st, st.start⟩ lpi
    else
      scanGo parse rem cs (i + 1) ⟨st.depth, nextStr c st, nextEsc c st, st.start⟩ lpi

/-- One full scan pass over `rem` starting at `lastParsedIndex = p` with
the zero scanner state: what a single call of `extractCompleteModules`
runs after locating the marker. -/
def scanFull (parse : List Char → Option Json) (rem : List Char) (p : Nat) :
    List Json × Nat × Option ScanSt :=
  scanGo parse rem (rem.drop p) p zeroScanSt p

/-- Is the JavaScript value truthy?  (`!module.id` uses this.) -/
def jsTruthy : Option Json → Bool
  | none => false
  | some Json.null => false
  | some (Json.bool b) => b
  | some (Json.num lx) =>
      -- a JSON number is falsy exactly when its value is zero: all
      -- mantissa digits are 0 (the exponent is then irrelevant)
      ¬ (lx.data.takeWhile fun c => c ≠ 'e' ∧ c ≠ 'E').all
          fun c => ¬ isDigitCh c ∨ c = '0'
  | some (Json.str s) => s ≠ ""
  | some (Json.arr _) => true
  | some (Json.obj _) => true

/-- Model of `if (!module.id) module.id = ...`: set the synthesized
identifier `temp-${Date.now()}-${newModules.length}` when the `id`
property is absent or falsy.  `now` models `Date.now()`, `k` the running
index `newModules.length`. -/
def injectTempId (now k : Nat) : Json → Json
  | Json.obj fields =>
      if jsTruthy (getField fields "id") then Json.obj fields
      else
        Json.obj (insertField fields "id"
          (Json.str ("temp-" ++ toString now ++ "-" ++ toString k)))
  | j => j

/-- Map with a running index starting at `k`. -/
def mapIdxFrom {α β : Type} (f : Nat → α → β) (k : Nat) : List α → List β
  | [] => []
  | a :: as => f k a :: mapIdxFrom f (k + 1) as

/-- Model of `extractCompleteModules(partialJSON, state)`, generic in the
candidate parser.  The in-place mutation of `state.lastParsedIndex` and
the `newModules.push` of the source are returned functionally; the
identifier injection happens per emitted module with its index in
`newModules`, which is exactly `mapIdxFrom` over the raw candidates. -/
def extractCompleteModules (parse : List Char → Option Json) (now : Nat)
    (input : String) (state : ParseState) : List Json × ParseState :=
  match findMarker input.data with
  | none => ([], state)
  | some m =>
      let rem := input.data.drop m
      let (raw, lpi, _) := scanFull parse rem state.lastParsedIndex
      let ms := mapIdxFrom (fun k mj => injectTempId now k mj) 0 raw
      (ms, ⟨state.completeModules ++ ms, lpi⟩)

/-- The raw candidates and final `lastParsedIndex` of a single
`extractCompleteModules` call on `b` from the initial state, before
identifier injection. -/
def oneshotRaw (parse : List Char → Option Json) (b : String) :
    List Json × Nat :=
  match findMarker b.data with
  | none => ([], 0)
  | some m =>
      ((scanFull parse (b.data.drop m) 0).1,
       (scanFull parse (b.data.drop m) 0).2.1)

/-- Run `extractCompleteModules` over successive `(Date.now(), buffer)`
calls, threading the returned parse state and concatenating the newly
returned modules in call order. -/
def runExtractor (parse : List Char → Option Json)
    (steps : List (Nat × String)) : List Json × ParseState :=
  steps.foldl
    (fun acc step =>
      ((acc.1 ++ (extractCompleteModules parse step.1 step.2 acc.2).1),
       (extractCompleteModules parse step.1 step.2 acc.2).2))
    ([], initialParseState)

/-- Drop every `id` field of an object (used to compare extracted
modules up to the synthesized, call-timing-dependent identifiers). -/
def eraseId : Json → Json
  | Json.obj fields => Json.obj (fields.filter fun p => p.1 ≠ "id")
  | j => j

/-- The modules array of a fully parsed document: what "parsing the
final complete buffer in one shot" yields. -/
def parsedModules (input : String) : List Json :=
  match jsonParse input with
  | some (Json.obj fields) =>
      match getField fields "modules" with
      | some (Json.arr items) => items
      | _ => []
  | _ => []

/-! ## Full-document parser and progress heuristic -/

/-- Lazy scan for the closing triple backtick: returns the (minimal)
captured content before the first closing fence, if one exists. -/
def takeUntilFence : List Char → Option (List Char)
  | '`' :: '`' :: '`' :: _ => some []
  | [] => none
  | c :: rest => (takeUntilFence rest).map (c :: ·)

/-- Try to match ```` ```(?:json)?\s*([\s\S]*?)``` ```` at the head:
optional literal `json`, maximal `\s*` run, then the lazy capture up to
the first closing fence. -/
def tryFenceAt (cs : List Char) : Option (List Char) :=
  match cs with
  | '`' :: '`' :: '`' :: r0 =>
      let r1 := if r0.take 4 = ['j', 's', 'o', 'n'] then r0.drop 4 else r0
      takeUntilFence (r1.drop (countJsWs r1))
  | _ => none

/-- Leftmost fenced-block match: the captured inner content of
`jsonString.match(/```(?:json)?\s*([\s\S]*?)```/)`. -/
def findFence : List Char → Option (List Char)
  | [] => none
  | c :: rest =>
      match tryFenceAt (c :: rest) with
      | some inner => some inner
      | none => findFence rest

/-- Model of `s.indexOf(c)`. -/
def firstIndexOf (cs : List Char) (c : Char) : Option Nat :=
  cs.findIdx? (· = c)

/-- Model of `s.lastIndexOf(c)`. -/
def lastIndexOf (cs : List Char) (c : Char) : Option Nat :=
  (cs.reverse.findIdx? (· = c)).map fun k => cs.length - 1 - k

/-- JavaScript `String.prototype.substring`: swaps its arguments when
`a > b` and clamps to the string length. -/
def jsSubstring (cs : List Char) (a b : Nat) : List Char :=
  (cs.drop (min a b)).take (max a b - min a b)

/-- Model of `parseCompleteJSON(jsonString)` from
src/utils/incrementalParser.ts; `none` models the re-thrown parse error. -/
def parseCompleteJSON (input : String) : Option Json :=
  let cleaned :=
    match findFence input.data with
    | some inner => inner
    | none => input.data
  let cleaned2 :=
    match firstIndexOf cleaned '{', lastIndexOf cleaned '}' with
    | some s, some e => jsSubstring cleaned s (e + 1)
    | _, _ => cleaned
  jsonParseChars cleaned2

/-- The selection step of the full-document parser as the specification
words it: use the fenced inner content when a fenced block is present,
the raw text otherwise; within that text take the substring from the
first `{` to the last `}` inclusive when both occur. -/
def specSelectedText (input : String) : List Char :=
  let body :=
    match findFence input.data with
    | some inner => inner
    | none => input.data
  if ('{' ∈ body) ∧ ('}' ∈ body) then
    match firstIndexOf body '{', lastIndexOf body '}' with
    | some s, some e => jsSubstring body s (e + 1)
    | _, _ => body
  else body

/-- Is the value a JSON object? -/
def Json.isObj : Json → Bool
  | Json.obj _ => true
  | _ => false

/-- Occurrences of a character (`(s.match(/{/g) || []).length`). -/
def countCh (c : Char) (cs : List Char) : Nat :=
  (cs.filter (· = c)).length

/-- Model of `estimateProgress(partialJSON)`: the brace-balance heuristic.  The
regex `"modules"\s*:\s*\[([\s\S]*)` shares its prefix with the marker
regex, so the capture is everything after `findMarker`.  JavaScript
arithmetic on these small integers is exact, so the result is modelled
in `ℚ`. -/
def estimateProgress (input : String) : ℚ :=
  match findMarker input.data with
  | none => 0
  | some m =>
      let content := input.data.drop m
      let openBraces := countCh '{' content
      let closeBraces := countCh '}' content
      let estimatedTotalModules : Nat := max 3 ((openBraces + 99) / 100)
      let completedModules : Nat := closeBraces / 100
      min 95 ((completedModules : ℚ) / (estimatedTotalModules : ℚ) * 100)

/-! ## SSE read loop (generateCurriculumStream, src/services/api.ts) -/

/-- One dispatched callback of the read loop: `onProgress`, `onChunk`,
`resolve` or `reject`, with the JavaScript property accesses it passes
(`none` models `undefined`). -/
inductive SseEvent where
  | progress (status message : Option Json)
  | chunk (text index : Option Json)
  | complete (curriculum aiProvider : Option Json)
  | error (message code : Option Json)

/-- Property access on a parsed value that is known not to be `null`
(`undefined` for non-objects and absent keys). -/
def jsAccess : Json → String → Option Json
  | Json.obj fields, k => getField fields k
  | _, _ => none

/-- Model of `buffer.split('\n\n')`: split on non-overlapping, leftmost
occurrences of the two-character separator. -/
def splitNN : List Char → List (List Char)
  | '\n' :: '\n' :: rest => [] :: splitNN rest
  | [] => [[]]
  | c :: rest =>
      match splitNN rest with
      | [] => [[c]]
      | p :: ps => (c :: p) :: ps

/-- Model of `message.split('\n')`. -/
def splitNl : List Char → List (List Char)
  | '\n' :: rest => [] :: splitNl rest
  | [] => [[]]
  | c :: rest =>
      match splitNl rest with
      | [] => [[c]]
      | p :: ps => (c :: p) :: ps

/-- JavaScript `String.prototype.trim` (strips the `\s` class from both
ends). -/
def trimChars (cs : List Char) : List Char :=
  ((cs.dropWhile isJsWs).reverse.dropWhile isJsWs).reverse

/-- The `for (const line of lines)` scan: the last `event:` line and the
last `data:` line win. -/
def scanLines : List (List Char) → Option (List Char) → Option (List Char) →
    Option (List Char) × Option (List Char)
  | [], eventType, data => (eventType, data)
  | line :: rest, eventType, data =>
      if line.take 6 = "event:".data then
        scanLines rest (some (trimChars (line.drop 6))) data
      else if line.take 5 = "data:".data then
        scanLines rest eventType (some (trimChars (line.drop 5)))
      else
        scanLines rest eventType data

/-- Dispatch of one complete SSE message block: the two `continue`
guards, the line scan, `if (!data) continue`, `JSON.parse` (a failure is
logged and skipped), and the `switch` on the event name.  A property
access on a parsed `null` throws inside the `try`, so no callback runs;
an unrecognized event name dispatches nothing. -/
def processBlock (message : List Char) : Option SseEvent :=
  if trimChars message = [] then none
  else if message.take 1 = [':'] then none
  else
    match scanLines (splitNl message) none none with
    | (eventType, data) =>
      match data with
      | none => none
      | some d =>
        if d = [] then none
        else
          match jsonParseChars d with
          | none => none
          | some pd =>
            match eventType with
            | some et =>
              if et = "progress".data then
                match pd with
                | Json.null => none
                | _ => some (SseEvent.progress (jsAccess pd "status")
                    (jsAccess pd "message"))
              else if et = "chunk".data then
                match pd with
                | Json.null => none
                | _ => some (SseEvent.chunk (jsAccess pd "chunk")
                    (jsAccess pd "chunkIndex"))
              else if et = "complete".data then
                match pd with
                | Json.null => none
                | _ => some (SseEvent.complete (jsAccess pd "curriculum")
                    (jsAccess pd "aiProvider"))
              else if et = "error".data then
                match pd with
                | Json.null => none
                | _ => some (SseEvent.error (jsAccess pd "message")
                    (jsAccess pd "code"))
              else none
            | none => none

/-- The buffering read loop: per read, append the chunk to the buffer,
split on `\n\n`, keep the trailing (incomplete) part as the new buffer
(`messages.pop() || ''`), process the complete blocks.  `done` (the end
of the chunk list) breaks out of the loop; the leftover buffer is never
processed. -/
def sseLoop (buffer : List Char) : List (List Char) → List SseEvent
  | [] => []
  | chunk :: rest =>
      (splitNN (buffer ++ chunk)).dropLast.filterMap processBlock ++
        sseLoop ((splitNN (buffer ++ chunk)).getLast?.getD []) rest

/-- All callback dispatches of `generateCurriculumStream` for a body
delivered as the given sequence of read chunks. -/
def sseEvents (chunks : List (List Char)) : List SseEvent :=
  sseLoop [] chunks

/-- Does this dispatch settle the promise (`resolve` on `complete`,
`reject` on `error`)? -/
def isTerminal : SseEvent → Bool
  | SseEvent.complete _ _ => true
  | SseEvent.error _ _ => true
  | _ => false

/-- The settlement of the promise returned by
`generateCurriculumStream`: the first `resolve`/`reject` wins; when the
reader reports `done` the loop just breaks — no code after it settles
the promise, so the result is `none`. -/
def sseSettle (buffer : List Char) : List (List Char) → Option SseEvent
  | [] => none
  | chunk :: rest =>
      match ((splitNN (buffer ++ chunk)).dropLast.filterMap
          processBlock).find? isTerminal with
      | some ev => some ev
      | none => sseSettle ((splitNN (buffer ++ chunk)).getLast?.getD []) rest

/-- The outcome of the whole streamed operation. -/
def sseOutcome (chunks : List (List Char)) : Option SseEvent :=
  sseSettle [] chunks

/-! ## Supporting lemmas -/

theorem map_eq_self_of {α : Type} (l : List α) (f : α → α)
    (h : ∀ x ∈ l, f x = x) : l.map f = l := by
  induction l with
  | nil => rfl
  | cons a l ih =>
      simp only [List.map_cons, h a (by simp)]
      rw [ih fun x hx => h x (by simp [hx])]

theorem filter_eq_self_of {α : Type} (l : List α) (p : α → Bool)
    (h : ∀ x ∈ l, p x = true) : l.filter p = l := by
  induction l with
  | nil => rfl
  | cons a l ih =>
      simp only [List.filter_cons, h a (by simp)]
      rw [if_pos trivial, ih fun x hx => h x (by simp [hx])]

theorem updateTopic_noop_inner (tid : String) (t? d? : Option String)
    (m : Module) (h : ∀ t ∈ m.topics, t.id ≠ tid) :
    (m.topics.map fun t =>
      if t.id = tid then
        { t with title := t?.getD t.title,
                 description := d?.getD t.description }
      else t) = m.topics :=
  map_eq_self_of _ _ fun t ht => if_neg (h t ht)

/-! ## Module-title lemmas for the ADD_MODULE sequence -/

theorem map_title_of_pointwise (l : List Module) (f : Module → Module)
    (h : ∀ m, (f m).title = m.title) :
    (l.map f).map Module.title = l.map Module.title := by
  induction l with
  | nil => rfl
  | cons a l ih => simp only [List.map_cons, h a, ih]

theorem subDeletion_preserves_titles (g : String) (c : Curriculum)
    (a : CurriculumAction) (h : isSubDeletion a) :
    (curriculumReducer g c a).modules.map Module.title =
      c.modules.map Module.title := by
  cases a with
  | deleteTopic mid tid =>
      simp only [curriculumReducer]
      exact map_title_of_pointwise _ _ fun m => by
        by_cases hm : m.id = mid <;> simp [hm]
  | deleteLesson mid tid lid =>
      simp only [curriculumReducer]
      exact map_title_of_pointwise _ _ fun m => by
        by_cases hm : m.id = mid <;> simp [hm]
  | setCurriculum p => exact absurd h (by simp [isSubDeletion])
  | resetForProgressive => exact absurd h (by simp [isSubDeletion])
  | addProgressiveModule p => exact absurd h (by simp [isSubDeletion])
  | updateCurriculumTitle p => exact absurd h (by simp [isSubDeletion])
  | updateCurriculumDescription p => exact absurd h (by simp [isSubDeletion])
  | addModule => exact absurd h (by simp [isSubDeletion])
  | updateModule a b c => exact absurd h (by simp [isSubDeletion])
  | deleteModule a => exact absurd h (by simp [isSubDeletion])
  | addTopic a => exact absurd h (by simp [isSubDeletion])
  | updateTopic a b x y => exact absurd h (by simp [isSubDeletion])
  | addLesson a b => exact absurd h (by simp [isSubDeletion])
  | updateLesson a b x y z => exact absurd h (by simp [isSubDeletion])

theorem subDeletions_preserve_titles (steps : List (String × CurriculumAction))
    (h : ∀ p ∈ steps, isSubDeletion p.2) (c : Curriculum) :
    (applyActions steps c).modules.map Module.title =
      c.modules.map Module.title := by
  induction steps generalizing c with
  | nil => rfl
  | cons p rest ih =>
      simp only [applyActions, List.foldl_cons]
      rw [show List.foldl (fun st q => curriculumReducer q.1 st q.2) _ rest =
        applyActions rest (curriculumReducer p.1 c p.2) from rfl]
      rw [ih (fun q hq => h q (by simp [hq])) _,
        subDeletion_preserves_titles p.1 c p.2 (h p (by simp))]

theorem addModule_titles (g : String) (c : Curriculum) :
    (curriculumReducer g c .addModule).modules.map Module.title =
      c.modules.map Module.title ++
        ["Module " ++ toString (c.modules.length + 1)] := by
  simp [curriculumReducer]

theorem delete_then_add_titles (st : Curriculum)
    (ds : List (String × CurriculumAction))
    (hds : ∀ p ∈ ds, isSubDeletion p.2) (g : String)
    (T : List String) (hT : st.modules.map Module.title = T) :
    (curriculumReducer g (applyActions ds st) .addModule).modules.map
        Module.title = T ++ ["Module " ++ toString (T.length + 1)] := by
  have hp := subDeletions_preserve_titles ds hds st
  have hlen : (applyActions ds st).modules.length = T.length := by
    have : ((applyActions ds st).modules.map Module.title).length = T.length := by
      rw [hp, hT]
    simpa using this
  rw [addModule_titles, hp, hT, hlen]

/-! ## Marker and scanner lemmas -/

theorem countJsWs_le_length (xs : List Char) : countJsWs xs ≤ xs.length := by
  induction xs with
  | nil => simp [countJsWs]
  | cons x xr ih =>
      by_cases hx : isJsWs x = true <;> simp [countJsWs, hx] <;> omega

theorem countJsWs_stop (xs t : List Char) (c : Char) (cr : List Char)
    (h : xs.drop (countJsWs xs) = c :: cr) :
    isJsWs c = false ∧ countJsWs (xs ++ t) = countJsWs xs ∧
      (xs ++ t).drop (countJsWs xs) = c :: (cr ++ t) := by
  induction xs with
  | nil =>
      simp [countJsWs] at h
  | cons x xr ih =>
      by_cases hx : isJsWs x = true
      · simp only [countJsWs, hx, if_true, List.drop_succ_cons] at h
        have := ih h
        simp only [List.cons_append, countJsWs, hx, if_true, List.drop_succ_cons,
          List.append_eq]
        simp only [List.append_eq] at this
        exact ⟨this.1, by rw [this.2.1], this.2.2⟩
      · simp only [countJsWs, hx, if_false, List.drop_zero] at h
        cases h
        simp only [List.cons_append, countJsWs, hx, if_false, List.drop_zero]
        exact ⟨by simpa using hx, rfl, rfl⟩

theorem countJsWs_exhaust (xs : List Char)
    (h : xs.drop (countJsWs xs) = []) :
    countJsWs xs = xs.length ∧ ∀ k (hk : k < xs.length), isJsWs xs[k] = true := by
  induction xs with
  | nil => exact ⟨rfl, by intro k hk; simp at hk⟩
  | cons x xr ih =>
      by_cases hx : isJsWs x = true
      · simp only [countJsWs, hx, if_true, List.drop_succ_cons] at h
        obtain ⟨h1, h2⟩ := ih h
        refine ⟨by simp [countJsWs, hx, h1], ?_⟩
        intro k hk
        match k with
        | 0 => simpa using hx
        | k + 1 =>
            simp only [List.getElem_cons_succ]
            exact h2 k (by simpa using hk)
      · simp only [countJsWs, hx, if_false, List.drop_zero] at h
        simp at h

theorem countJsWs_mem_run (xs : List Char) (k : Nat)
    (hk : k < countJsWs xs) (hlen : k < xs.length) : isJsWs xs[k] = true := by
  induction xs generalizing k with
  | nil => simp at hlen
  | cons x xr ih =>
      by_cases hx : isJsWs x = true
      · match k with
        | 0 => simpa using hx
        | k + 1 =>
            simp only [List.getElem_cons_succ]
            simp only [countJsWs, hx, if_true] at hk
            exact ih k (by omega) (by simpa using hlen)
      · simp [countJsWs, hx] at hk

theorem markerLit_length : markerLit.length = 9 := rfl

theorem matchMarkerAt_some_elim (cs : List Char) (len : Nat)
    (h : matchMarkerAt cs = some len) :
    ∃ w1 r2 w2 r3,
      cs.take 9 = markerLit ∧
      w1 = countJsWs (cs.drop 9) ∧
      (cs.drop 9).drop w1 = ':' :: r2 ∧
      w2 = countJsWs r2 ∧
      r2.drop w2 = '[' :: r3 ∧
      len = 9 + w1 + 1 + w2 + 1 := by
  unfold matchMarkerAt at h
  by_cases h9 : cs.take 9 = markerLit
  · rw [if_pos h9] at h
    split at h
    · rename_i r2 hr1
      split at h
      · rename_i r3 hr2
        refine ⟨_, r2, _, r3, h9, rfl, hr1, rfl, hr2, ?_⟩
        simpa using h.symm
      · simp at h
    · simp at h
  · rw [if_neg h9] at h
    simp at h




theorem matchMarkerAt_bound (cs : List Char) (len : Nat)
    (h : matchMarkerAt cs = some len) : 11 ≤ len ∧ len ≤ cs.length := by
  obtain ⟨w1, r2, w2, r3, h9, hw1, hr1, hw2, hr2, hlen⟩ :=
    matchMarkerAt_some_elim cs len h
  have h9len : 9 ≤ cs.length := by
    have := congrArg List.length h9
    simp [markerLit] at this
    omega
  constructor
  · omega
  · -- (cs.drop 9).drop w1 = ':' :: r2, so 9 + w1 + 1 + r2.length = cs.length
    have e2 := congrArg List.length hr1
    simp at e2
    have e3 := congrArg List.length hr2
    simp at e3
    have hw1le : w1 ≤ cs.length - 9 := by
      rw [hw1]
      have := countJsWs_le_length (cs.drop 9)
      simpa using this
    have hw2le : w2 ≤ r2.length := by
      rw [hw2]; exact countJsWs_le_length r2
    omega

theorem matchMarkerAt_append (cs t : List Char) (len : Nat)
    (h : matchMarkerAt cs = some len) : matchMarkerAt (cs ++ t) = some len := by
  obtain ⟨w1, r2, w2, r3, h9, hw1, hr1, hw2, hr2, hlen⟩ :=
    matchMarkerAt_some_elim cs len h
  have h9len : 9 ≤ cs.length := by
    have := congrArg List.length h9
    simp [markerLit] at this
    omega
  have hdrop9 : (cs ++ t).drop 9 = cs.drop 9 ++ t :=
    List.drop_append_of_le_length h9len
  have s1 := countJsWs_stop (cs.drop 9) t ':' r2 (hw1 ▸ hr1)
  have s2 := countJsWs_stop r2 t '[' r3 (hw2 ▸ hr2)
  subst hw1 hw2
  unfold matchMarkerAt
  rw [if_pos (by rw [List.take_append_of_le_length h9len, h9])]
  rw [hdrop9, s1.2.1, s1.2.2]
  split
  · rename_i r2x heq
    obtain rfl : r2x = r2 ++ t := by cases heq; rfl
    rw [s2.2.1, s2.2.2]
    split
    · rename_i tail heq2
      rw [hlen]
    · rename_i hne
      exact absurd rfl (hne (r3 ++ t))
  · rename_i hne
    exact absurd rfl (hne (r2 ++ t))

theorem findMarkerFrom_some_elim (s : List Char) (i m : Nat)
    (h : findMarkerFrom s i = some m) :
    ∃ q len, matchMarkerAt (s.drop q) = some len ∧ m = i + q + len ∧
      q + len ≤ s.length := by
  induction s generalizing i with
  | nil => simp [findMarkerFrom] at h
  | cons c rest ih =>
      unfold findMarkerFrom at h
      rcases hm : matchMarkerAt (c :: rest) with _ | len' <;> rw [hm] at h
      · obtain ⟨q, len, hq1, hq2, hq3⟩ := ih (i + 1) h
        exact ⟨q + 1, len, by simpa using hq1, by omega, by
          simp only [List.length_cons]; omega⟩
      · obtain ⟨rfl⟩ : m = i + len' := by simpa using h.symm
        exact ⟨0, len', by simpa using hm, by omega, by
          have := (matchMarkerAt_bound _ _ hm).2
          simpa using this⟩




theorem no_interior_match (s : List Char)
    (h9 : s.take 9 = markerLit)
    (hws : ∀ j, 9 ≤ j → (hj : j < s.length) → isJsWs s[j] = true ∨ s[j] = ':')
    (q len : Nat) (hq : 1 ≤ q) (hm : matchMarkerAt (s.drop q) = some len) :
    False := by
  obtain ⟨hlen11, hlenle⟩ := matchMarkerAt_bound _ _ hm
  have hqs : q + 11 ≤ s.length := by
    have hd : (s.drop q).length = s.length - q := by simp
    omega
  obtain ⟨w1, r2, w2, r3, h9q, _, _, _, _, _⟩ := matchMarkerAt_some_elim _ _ hm
  obtain ⟨rest, hrest⟩ : ∃ r, s.drop q = markerLit ++ r :=
    ⟨(s.drop q).drop 9, by rw [← h9q, List.take_append_drop]⟩
  have hq0 : s[q] = '"' := by
    have h0 := List.getElem_drop' s (i := q) (j := 0) (by omega)
    simp only [Nat.add_zero] at h0
    rw [h0]
    simp [hrest, markerLit]
  by_cases hq9 : 9 ≤ q
  · rcases hws q hq9 (by omega) with hw | hw
    · rw [hq0] at hw; simp [isJsWs] at hw
    · rw [hq0] at hw; simp at hw
  · -- 1 ≤ q ≤ 8: s starts with the marker literal itself
    obtain ⟨rest0, hrest0⟩ : ∃ r, s = markerLit ++ r :=
      ⟨s.drop 9, by rw [← h9, List.take_append_drop]⟩
    interval_cases q
    · simp only [hrest0] at hq0; simp [markerLit] at hq0
    · simp only [hrest0] at hq0; simp [markerLit] at hq0
    · simp only [hrest0] at hq0; simp [markerLit] at hq0
    · simp only [hrest0] at hq0; simp [markerLit] at hq0
    · simp only [hrest0] at hq0; simp [markerLit] at hq0
    · simp only [hrest0] at hq0; simp [markerLit] at hq0
    · simp only [hrest0] at hq0; simp [markerLit] at hq0
    · -- q = 8: the next marker character would have to be 'm' at index 9
      have hm9 : s[9] = 'm' := by
        have h0 := List.getElem_drop' s (i := 8) (j := 1) (by omega)
        simp only [show 8 + 1 = 9 from rfl] at h0
        rw [h0]
        simp [hrest, markerLit]
      rcases hws 9 (by omega) (by omega) with hw | hw
      · rw [hm9] at hw; simp [isJsWs] at hw
      · rw [hm9] at hw; simp at hw




theorem getElem_of_drop (s : List Char) (n j : Nat) (hn : n ≤ j) (hj : j < s.length)
    (h2 : j - n < (s.drop n).length) :
    s[j] = (s.drop n)[j - n] := by
  have h := List.getElem_drop' s (i := n) (j := j - n) (by omega)
  simp only [show n + (j - n) = j from by omega] at h
  exact h

theorem matchMarkerAt_none_extend (s t : List Char)
    (hnone : matchMarkerAt s = none)
    (q len : Nat) (hq : 1 ≤ q) (hint : matchMarkerAt (s.drop q) = some len) :
    matchMarkerAt (s ++ t) = none := by
  have hbound := matchMarkerAt_bound _ _ hint
  have hdlen : (s.drop q).length = s.length - q := by simp
  have hslen : 12 ≤ s.length := by omega
  by_cases h9 : s.take 9 = markerLit
  · have hdrop9 : (s ++ t).drop 9 = s.drop 9 ++ t :=
      List.drop_append_of_le_length (by omega)
    rcases hr1 : (s.drop 9).drop (countJsWs (s.drop 9)) with _ | ⟨c, r2⟩
    · -- everything after index 9 is whitespace: contradicts the interior match
      obtain ⟨hwlen, hall⟩ := countJsWs_exhaust _ hr1
      exact absurd hint (fun hcontra =>
        no_interior_match s h9
          (fun j hj9 hj => Or.inl (by
            rw [getElem_of_drop s 9 j hj9 hj (by simp; omega)]
            exact hall (j - 9) (by simp; omega)))
          q len hq hcontra)
    · by_cases hc : c = ':'
      · subst hc
        rcases hr2 : r2.drop (countJsWs r2) with _ | ⟨d, r3⟩
        · -- whitespace, one colon, then whitespace to the end: contradicts
          -- the interior match
          obtain ⟨hwlen2, hall2⟩ := countJsWs_exhaust _ hr2
          have hcol : ∀ j, 9 ≤ j → (hj : j < s.length) →
              isJsWs s[j] = true ∨ s[j] = ':' := by
            intro j hj9 hj
            have hk : j - 9 < (s.drop 9).length := by simp; omega
            set w1 := countJsWs (s.drop 9) with hw1
            have hlr := congrArg List.length hr1
            simp at hlr
            rcases lt_trichotomy (j - 9) w1 with hlt | heq | hgt
            · exact Or.inl (by
                rw [getElem_of_drop s 9 j hj9 hj hk]
                exact countJsWs_mem_run _ _ hlt hk)
            · refine Or.inr ?_
              rw [getElem_of_drop s 9 j hj9 hj hk]
              simp only [heq]
              have h0 := List.getElem_drop' (s.drop 9) (i := w1) (j := 0)
                (by omega)
              simp only [hr1] at h0
              simpa using h0
            · refine Or.inl ?_
              rw [getElem_of_drop s 9 j hj9 hj hk]
              have h0 := List.getElem_drop' (s.drop 9) (i := w1)
                (j := j - 9 - w1) (by omega)
              simp only [hr1] at h0
              simp only [show w1 + (j - 9 - w1) = j - 9 from by omega] at h0
              rw [h0]
              obtain ⟨k2, hk2⟩ : ∃ k2, j - 9 - w1 = k2 + 1 :=
                ⟨j - 9 - w1 - 1, by omega⟩
              simp only [hk2, List.getElem_cons_succ]
              exact hall2 _ (by omega)
          exact absurd hint (fun hcontra =>
            no_interior_match s h9 hcol q len hq hcontra)
        · by_cases hd : d = '['
          · -- then the marker would match s itself, contradicting hnone
            subst hd
            exfalso
            have hsome : matchMarkerAt s =
                some (9 + countJsWs (s.drop 9) + 1 + countJsWs r2 + 1) := by
              unfold matchMarkerAt
              rw [if_pos h9]
              split
              · rename_i r2x heqx
                rw [hr1] at heqx
                obtain rfl : r2x = r2 := by cases heqx; rfl
                split
                · rename_i r3x heqy
                  rfl
                · rename_i hne
                  exact absurd hr2 (hne r3)
              · rename_i hne
                exact absurd hr1 (hne r2)
            rw [hsome] at hnone
            exact Option.noConfusion hnone
          · -- the extension also fails at the same non-'[' character
            have s1 := countJsWs_stop (s.drop 9) t ':' r2 hr1
            have s2 := countJsWs_stop r2 t d r3 hr2
            unfold matchMarkerAt
            rw [if_pos (by rw [List.take_append_of_le_length (by omega), h9])]
            rw [hdrop9, s1.2.1, s1.2.2]
            split
            · rename_i r2x heq
              obtain rfl : r2x = r2 ++ t := by cases heq; rfl
              rw [s2.2.1, s2.2.2]
              split
              · rename_i tail heq2
                exact absurd (by cases heq2; rfl : d = '[') hd
              · rfl
            · rename_i hne
              exact absurd rfl (hne (r2 ++ t))
      · -- the run after `"modules"` stops at a non-colon character
        have s1 := countJsWs_stop (s.drop 9) t c r2 hr1
        unfold matchMarkerAt
        rw [if_pos (by rw [List.take_append_of_le_length (by omega), h9])]
        rw [hdrop9, s1.2.1, s1.2.2]
        split
        · rename_i r2x heq
          exact absurd (by cases heq; rfl : c = ':') hc
        · rfl
  · unfold matchMarkerAt
    rw [if_neg (by rw [List.take_append_of_le_length (by omega)]; exact h9)]




theorem findMarkerFrom_append (s t : List Char) (i m : Nat)
    (h : findMarkerFrom s i = some m) : findMarkerFrom (s ++ t) i = some m := by
  induction s generalizing i with
  | nil => simp [findMarkerFrom] at h
  | cons c rest ih =>
      unfold findMarkerFrom at h
      rcases hm : matchMarkerAt (c :: rest) with _ | len <;> rw [hm] at h
      · obtain ⟨q, len, hq1, hq2, hq3⟩ := findMarkerFrom_some_elim rest (i + 1) m h
        have hext : matchMarkerAt ((c :: rest) ++ t) = none :=
          matchMarkerAt_none_extend (c :: rest) t hm (q + 1) len (by omega)
            (by simpa using hq1)
        show findMarkerFrom (c :: (rest ++ t)) i = some m
        unfold findMarkerFrom
        rw [show c :: (rest ++ t) = (c :: rest) ++ t from rfl, hext]
        exact ih (i + 1) h
      · show findMarkerFrom (c :: (rest ++ t)) i = some m
        unfold findMarkerFrom
        rw [show c :: (rest ++ t) = (c :: rest) ++ t from rfl,
          matchMarkerAt_append _ t _ hm]
        simpa using h

/-- Once the marker regex matches, appending text never changes the match:
`modulesStartIndex` is stable under buffer growth. -/
theorem findMarker_append (s t : List Char) (m : Nat)
    (h : findMarker s = some m) : findMarker (s ++ t) = some m :=
  findMarkerFrom_append s t 0 m h

theorem findMarker_le_length (s : List Char) (m : Nat)
    (h : findMarker s = some m) : m ≤ s.length := by
  obtain ⟨q, len, h1, h2, h3⟩ := findMarkerFrom_some_elim s 0 m h
  omega

theorem scanGo_lpi_ge (parse : List Char → Option Json) (rem : List Char) :
    ∀ (cs : List Char) (i : Nat) (st : ScanSt) (lpi : Nat), lpi ≤ i →
      lpi ≤ (scanGo parse rem cs i st lpi).2.1 := by
  intro cs
  induction cs with
  | nil => intro i st lpi h; simp [scanGo]
  | cons c cs ih =>
      intro i st lpi h
      rw [scanGo]
      by_cases h1 : nextStr c st = true
      · rw [if_pos h1]
        exact ih (i + 1) _ lpi (by omega)
      · rw [if_neg h1]
        by_cases h2 : c = '{'
        · rw [if_pos h2]
          exact ih (i + 1) _ lpi (by omega)
        · rw [if_neg h2]
          by_cases h3 : c = '}'
          · rw [if_pos h3]
            rcases hst : st.start with _ | s
            · simp only [hst]
              exact ih (i + 1) _ lpi (by omega)
            · simp only [hst]
              by_cases hd : st.depth - 1 = 0
              · rw [if_pos hd]
                rcases hp : parse (subSlice rem s (i + 1)) with _ | m
                · simp only [hp]
                  exact le_refl _
                · simp only [hp]
                  rcases hres : scanGo parse rem cs (i + 1)
                    ⟨0, nextStr c st, nextEsc c st, none⟩ (i + 1) with ⟨ms, l, e⟩
                  have hih := ih (i + 1) ⟨0, nextStr c st, nextEsc c st, none⟩
                    (i + 1) (le_refl _)
                  rw [hres] at hih
                  simp only [hres]
                  simp at hih ⊢
                  omega
              · rw [if_neg hd]
                exact ih (i + 1) _ lpi (by omega)
          · rw [if_neg h3]
            exact ih (i + 1) _ lpi (by omega)

theorem scanGo_lpi_le (parse : List Char → Option Json) (rem : List Char) :
    ∀ (cs : List Char) (i : Nat) (st : ScanSt) (lpi : Nat) (n : Nat),
      i + cs.length ≤ n → lpi ≤ n →
      (scanGo parse rem cs i st lpi).2.1 ≤ n := by
  intro cs
  induction cs with
  | nil => intro i st lpi n h1 h2; simpa [scanGo] using h2
  | cons c cs ih =>
      intro i st lpi n hle h2
      simp only [List.length_cons] at hle
      rw [scanGo]
      by_cases h1 : nextStr c st = true
      · rw [if_pos h1]
        exact ih (i + 1) _ lpi n (by omega) h2
      · rw [if_neg h1]
        by_cases hc2 : c = '{'
        · rw [if_pos hc2]
          exact ih (i + 1) _ lpi n (by omega) h2
        · rw [if_neg hc2]
          by_cases hc3 : c = '}'
          · rw [if_pos hc3]
            rcases hst : st.start with _ | s
            · simp only [hst]
              exact ih (i + 1) _ lpi n (by omega) h2
            · simp only [hst]
              by_cases hd : st.depth - 1 = 0
              · rw [if_pos hd]
                rcases hp : parse (subSlice rem s (i + 1)) with _ | m
                · simp only [hp]
                  exact h2
                · simp only [hp]
                  rcases hres : scanGo parse rem cs (i + 1)
                    ⟨0, nextStr c st, nextEsc c st, none⟩ (i + 1) with ⟨ms, l, e⟩
                  have hih := ih (i + 1) ⟨0, nextStr c st, nextEsc c st, none⟩
                    (i + 1) n (by omega) (by omega)
                  rw [hres] at hih
                  simp only [hres]
                  simp at hih ⊢
                  omega
              · rw [if_neg hd]
                exact ih (i + 1) _ lpi n (by omega) h2
          · rw [if_neg hc3]
            exact ih (i + 1) _ lpi n (by omega) h2

theorem scanGo_nil_emit (parse : List Char → Option Json) (rem : List Char) :
    ∀ (cs : List Char) (i : Nat) (st : ScanSt) (lpi L : Nat) (e : Option ScanSt),
      scanGo parse rem cs i st lpi = ([], L, e) → L = lpi := by
  intro cs
  induction cs with
  | nil => intro i st lpi L e h; simp [scanGo] at h; omega
  | cons c cs ih =>
      intro i st lpi L e h
      rw [scanGo] at h
      by_cases h1 : nextStr c st = true
      · rw [if_pos h1] at h
        exact ih (i + 1) _ lpi L e h
      · rw [if_neg h1] at h
        by_cases hc2 : c = '{'
        · rw [if_pos hc2] at h
          exact ih (i + 1) _ lpi L e h
        · rw [if_neg hc2] at h
          by_cases hc3 : c = '}'
          · rw [if_pos hc3] at h
            rcases hst : st.start with _ | s
            · simp only [hst] at h
              exact ih (i + 1) _ lpi L e h
            · simp only [hst] at h
              by_cases hd : st.depth - 1 = 0
              · rw [if_pos hd] at h
                rcases hp : parse (subSlice rem s (i + 1)) with _ | m
                · simp only [hp] at h
                  simp at h
                  omega
                · simp only [hp] at h
                  rcases hres : scanGo parse rem cs (i + 1)
                    ⟨0, nextStr c st, nextEsc c st, none⟩ (i + 1) with ⟨ms, l, e'⟩
                  rw [hres] at h
                  simp at h
              · rw [if_neg hd] at h
                exact ih (i + 1) _ lpi L e h
          · rw [if_neg hc3] at h
            exact ih (i + 1) _ lpi L e h

theorem drop_of_drop_cons {α : Type} (l : List α) (i : Nat) (c : α) (cs : List α)
    (h : l.drop i = c :: cs) : l.drop (i + 1) = cs := by
  rw [← List.tail_drop, h]
  rfl

theorem scanGo_first_emit (parse : List Char → Option Json) (rem : List Char) :
    ∀ (cs : List Char) (i : Nat) (st : ScanSt) (lpi : Nat) (m : Json)
      (ms : List Json) (L : Nat) (e : Option ScanSt),
      cs = rem.drop i →
      scanGo parse rem cs i st lpi = (m :: ms, L, e) →
      ∃ j, i ≤ j ∧
        scanGo parse rem (rem.drop (j + 1)) (j + 1) zeroScanSt (j + 1) = (ms, L, e) := by
  intro cs
  induction cs with
  | nil => intro i st lpi m ms L e hcs h; simp [scanGo] at h
  | cons c cs ih =>
      intro i st lpi m ms L e hcs h
      have hcs' : cs = rem.drop (i + 1) := (drop_of_drop_cons rem i c cs hcs.symm).symm
      rw [scanGo] at h
      by_cases h1 : nextStr c st = true
      · rw [if_pos h1] at h
        obtain ⟨j, hj1, hj2⟩ := ih (i + 1) _ lpi m ms L e hcs' h
        exact ⟨j, by omega, hj2⟩
      · rw [if_neg h1] at h
        by_cases hc2 : c = '{'
        · rw [if_pos hc2] at h
          obtain ⟨j, hj1, hj2⟩ := ih (i + 1) _ lpi m ms L e hcs' h
          exact ⟨j, by omega, hj2⟩
        · rw [if_neg hc2] at h
          by_cases hc3 : c = '}'
          · rw [if_pos hc3] at h
            rcases hst : st.start with _ | s
            · simp only [hst] at h
              obtain ⟨j, hj1, hj2⟩ := ih (i + 1) _ lpi m ms L e hcs' h
              exact ⟨j, by omega, hj2⟩
            · simp only [hst] at h
              by_cases hd : st.depth - 1 = 0
              · rw [if_pos hd] at h
                rcases hp : parse (subSlice rem s (i + 1)) with _ | m'
                · simp only [hp] at h
                  simp at h
                · simp only [hp] at h
                  rcases hres : scanGo parse rem cs (i + 1)
                    ⟨0, nextStr c st, nextEsc c st, none⟩ (i + 1) with ⟨ms', l', e'⟩
                  rw [hres] at h
                  simp at h
                  obtain ⟨⟨rfl, rfl⟩, rfl, rfl⟩ := h
                  have hzero : (⟨0, nextStr c st, nextEsc c st, none⟩ : ScanSt) =
                      zeroScanSt := by
                    have hstr : nextStr c st = false := by
                      simpa using h1
                    have hesc : nextEsc c st = false := by
                      simp [nextEsc, hc3]
                    rw [hstr, hesc]; rfl
                  rw [hzero, hcs'] at hres
                  exact ⟨i, le_refl _, hres⟩
              · rw [if_neg hd] at h
                obtain ⟨j, hj1, hj2⟩ := ih (i + 1) _ lpi m ms L e hcs' h
                exact ⟨j, by omega, hj2⟩
          · rw [if_neg hc3] at h
            obtain ⟨j, hj1, hj2⟩ := ih (i + 1) _ lpi m ms L e hcs' h
            exact ⟨j, by omega, hj2⟩




theorem subSlice_append (rem ext : List Char) (s e : Nat) (hs : s ≤ rem.length)
    (he : e ≤ rem.length) : subSlice (rem ++ ext) s e = subSlice rem s e := by
  unfold subSlice
  rw [List.drop_append_of_le_length hs]
  exact List.take_append_of_le_length (by simp; omega)

theorem scanGo_extend (parse : List Char → Option Json) (rem ext : List Char) :
    ∀ (cs : List Char) (i : Nat) (st : ScanSt) (lpi : Nat),
      i + cs.length = rem.length →
      (∀ s, st.start = some s → s ≤ i) →
      scanGo parse (rem ++ ext) (cs ++ ext) i st lpi =
        (match scanGo parse rem cs i st lpi with
         | (r, L, none) => (r, L, none)
         | (r, L, some σ) =>
             (r ++ (scanGo parse (rem ++ ext) ext rem.length σ L).1,
              (scanGo parse (rem ++ ext) ext rem.length σ L).2)) := by
  intro cs
  induction cs with
  | nil =>
      intro i st lpi hlen hstart
      have hi : i = rem.length := by simpa using hlen
      subst hi
      simp [scanGo]
  | cons c cs ih =>
      intro i st lpi hlen hstart
      simp only [List.length_cons] at hlen
      have hlen' : (i + 1) + cs.length = rem.length := by omega
      rw [List.cons_append, scanGo, scanGo]
      by_cases h1 : nextStr c st = true
      · rw [if_pos h1, if_pos h1]
        refine ih (i + 1) _ lpi hlen' fun s hs => ?_
        have := hstart s hs
        omega
      · rw [if_neg h1, if_neg h1]
        by_cases hc2 : c = '{'
        · rw [if_pos hc2, if_pos hc2]
          refine ih (i + 1) _ lpi hlen' ?_
          intro s hs
          by_cases hd0 : st.depth = 0
          · rw [if_pos hd0] at hs
            cases hs
            omega
          · rw [if_neg hd0] at hs
            have := hstart s hs
            omega
        · rw [if_neg hc2, if_neg hc2]
          by_cases hc3 : c = '}'
          · rw [if_pos hc3, if_pos hc3]
            rcases hst : st.start with _ | s
            · simp only [hst]
              refine ih (i + 1) _ lpi hlen' ?_
              intro s hs
              simp at hs
            · simp only [hst]
              by_cases hd : st.depth - 1 = 0
              · rw [if_pos hd, if_pos hd]
                have hslice : subSlice (rem ++ ext) s (i + 1) = subSlice rem s (i + 1) :=
                  subSlice_append rem ext s (i + 1)
                    (by have := hstart s hst; omega) (by omega)
                rw [hslice]
                rcases hp : parse (subSlice rem s (i + 1)) with _ | m
                · simp only [hp]
                · simp only [hp]
                  have hihz := ih (i + 1) ⟨0, nextStr c st, nextEsc c st, none⟩
                    (i + 1) hlen' (by intro s hs; simp at hs)
                  rcases hres : scanGo parse rem cs (i + 1)
                    ⟨0, nextStr c st, nextEsc c st, none⟩ (i + 1) with ⟨ms, l, e⟩
                  rw [hres] at hihz
                  rw [hihz]
                  rcases e with _ | σ
                  · simp [hres]
                  · simp [hres]
              · rw [if_neg hd, if_neg hd]
                refine ih (i + 1) _ lpi hlen' ?_
                intro s' hs'
                cases hs'
                have := hstart s hst
                omega
          · rw [if_neg hc3, if_neg hc3]
            refine ih (i + 1) _ lpi hlen' fun s hs => ?_
            have := hstart s hs
            omega




theorem scanGo_restart (parse : List Char → Option Json) (rem : List Char) :
    ∀ (r : List Json) (i L : Nat) (e : Option ScanSt),
      scanGo parse rem (rem.drop i) i zeroScanSt i = (r, L, e) →
      scanGo parse rem (rem.drop L) L zeroScanSt L = ([], L, e) := by
  intro r
  induction r with
  | nil =>
      intro i L e h
      have hL : L = i := scanGo_nil_emit parse rem _ i zeroScanSt i L e h
      subst hL
      exact h
  | cons m ms ih =>
      intro i L e h
      obtain ⟨j, _, hj⟩ := scanGo_first_emit parse rem _ i zeroScanSt i m ms L e rfl h
      exact ih (j + 1) L e hj

theorem scanFull_compose (parse : List Char → Option Json)
    (rem ext : List Char) (p : Nat) (hp : p ≤ rem.length) :
    scanFull parse (rem ++ ext) p =
      ((scanFull parse rem p).1 ++
          (scanFull parse (rem ++ ext) (scanFull parse rem p).2.1).1,
        (scanFull parse (rem ++ ext) (scanFull parse rem p).2.1).2) := by
  rcases hfull : scanFull parse rem p with ⟨r, L, e⟩
  have hL : L ≤ rem.length := by
    have := scanGo_lpi_le parse rem (rem.drop p) p zeroScanSt p rem.length
      (by simp; omega) hp
    unfold scanFull at hfull
    rw [hfull] at this
    simpa using this
  have hdropP : (rem ++ ext).drop p = rem.drop p ++ ext :=
    List.drop_append_of_le_length hp
  have hdropL : (rem ++ ext).drop L = rem.drop L ++ ext :=
    List.drop_append_of_le_length hL
  have hrestart := scanGo_restart parse rem r p L e (by
    unfold scanFull at hfull; exact hfull)
  have hmain := scanGo_extend parse rem ext (rem.drop p) p zeroScanSt p
    (by simp; omega) (by intro s hs; simp [zeroScanSt] at hs)
  have hcont := scanGo_extend parse rem ext (rem.drop L) L zeroScanSt L
    (by simp; omega) (by intro s hs; simp [zeroScanSt] at hs)
  unfold scanFull at hfull
  rw [hfull] at hmain
  rw [hrestart] at hcont
  show scanGo parse (rem ++ ext) ((rem ++ ext).drop p) p zeroScanSt p = _
  rw [hdropP, hmain]
  show _ = ((r, L, e).1 ++
      (scanGo parse (rem ++ ext) ((rem ++ ext).drop L) L zeroScanSt L).1,
    (scanGo parse (rem ++ ext) ((rem ++ ext).drop L) L zeroScanSt L).2)
  rw [hdropL, hcont]
  rcases e with _ | σ
  · simp
  · simp

theorem filter_insertField (fields : List (String × Json)) (k : String) (v : Json) :
    (insertField fields k v).filter (fun p => p.1 ≠ k) =
      fields.filter (fun p => p.1 ≠ k) := by
  induction fields with
  | nil => simp [insertField]
  | cons p rest ih =>
      rcases p with ⟨k', v'⟩
      by_cases hk : k' = k
      · subst hk
        simp [insertField, List.filter_cons]
      · simp only [insertField, if_neg hk, List.filter_cons]
        simp only [ne_eq, decide_not] at ih ⊢
        simp [hk, ih]

theorem eraseId_injectTempId (now k : Nat) (m : Json) :
    eraseId (injectTempId now k m) = eraseId m := by
  cases m with
  | obj fields =>
      simp only [injectTempId]
      by_cases ht : jsTruthy (getField fields "id") = true
      · rw [if_pos ht]
      · rw [if_neg ht]
        simp only [eraseId]
        rw [filter_insertField]
  | null => rfl
  | bool b => rfl
  | num lx => rfl
  | str s => rfl
  | arr xs => rfl

theorem mapIdxFrom_map_eraseId (now : Nat) :
    ∀ (raw : List Json) (k : Nat),
      (mapIdxFrom (fun k mj => injectTempId now k mj) k raw).map eraseId =
        raw.map eraseId := by
  intro raw
  induction raw with
  | nil => intro k; rfl
  | cons m ms ih =>
      intro k
      simp only [mapIdxFrom, List.map_cons, eraseId_injectTempId, ih]

theorem extract_lpi_ge (parse : List Char → Option Json) (now : Nat)
    (b : String) (st : ParseState) :
    st.lastParsedIndex ≤
      (extractCompleteModules parse now b st).2.lastParsedIndex := by
  rcases hm : findMarker b.data with _ | m
  · simp [extractCompleteModules, hm]
  · simp only [extractCompleteModules, hm]
    have h := scanGo_lpi_ge parse (b.data.drop m)
      ((b.data.drop m).drop st.lastParsedIndex) st.lastParsedIndex zeroScanSt
      st.lastParsedIndex (le_refl _)
    rcases hres : scanFull parse (b.data.drop m) st.lastParsedIndex
      with ⟨raw, lpi, e⟩
    unfold scanFull at hres
    rw [hres] at h
    simp only [hres]
    simpa using h





theorem firstIndexOf_isSome_iff (cs : List Char) (c : Char) :
    (firstIndexOf cs c).isSome = true ↔ c ∈ cs := by
  unfold firstIndexOf
  rw [List.findIdx?_isSome, List.any_eq_true]
  constructor
  · rintro ⟨x, hx, he⟩
    have : x = c := by simpa using he
    exact this ▸ hx
  · intro h
    exact ⟨c, h, by simp⟩

theorem lastIndexOf_isSome_iff (cs : List Char) (c : Char) :
    (lastIndexOf cs c).isSome = true ↔ c ∈ cs := by
  unfold lastIndexOf
  rcases hfi : cs.reverse.findIdx? (· = c) with _ | k
  · simp only [hfi, Option.map_none', Option.isSome_none]
    constructor
    · intro h; exact absurd h (by simp)
    · intro hmem
      have hall := List.findIdx?_eq_none_iff.mp hfi
      have := hall c (by simpa using hmem)
      simp at this
  · simp only [hfi, Option.map_some', Option.isSome_some]
    constructor
    · intro _
      have hs : (cs.reverse.findIdx? (· = c)).isSome = true := by simp [hfi]
      rw [List.findIdx?_isSome, List.any_eq_true] at hs
      obtain ⟨x, hx, he⟩ := hs
      have : x = c := by simpa using he
      subst this
      exact List.mem_reverse.mp hx
    · intro _; trivial

theorem splitNN_ne_nil (a : List Char) : splitNN a ≠ [] := by
  induction a using splitNN.induct with
  | case1 rest ih => rw [splitNN.eq_1]; simp
  | case2 => rw [splitNN.eq_2]; simp
  | case3 c rest hg hnil ih => exact absurd hnil ih
  | case4 c rest hg p ps hps ih =>
      rw [splitNN.eq_3 c rest hg, hps]
      simp

theorem splitNN_singleton (a : List Char) :
    ∀ y, splitNN a = [y] → y = a := by
  induction a using splitNN.induct with
  | case1 rest ih =>
      intro y hy
      rw [splitNN.eq_1] at hy
      obtain ⟨h1, h2⟩ := List.cons.inj hy
      exact absurd h2 (splitNN_ne_nil rest)
  | case2 =>
      intro y hy
      rw [splitNN.eq_2] at hy
      simpa using hy.symm
  | case3 c rest hg hnil ih => exact absurd hnil (splitNN_ne_nil rest)
  | case4 c rest hg p ps hps ih =>
      intro y hy
      rw [splitNN.eq_3 c rest hg, hps] at hy
      simp at hy
      obtain ⟨rfl, rfl⟩ := hy
      rw [ih p (by rw [hps])]

theorem splitNN_append (a b : List Char) :
    splitNN (a ++ b) =
      (splitNN a).dropLast ++
        splitNN (((splitNN a).getLast?.getD []) ++ b) := by
  induction a using splitNN.induct with
  | case1 rest ih =>
      rw [List.cons_append, List.cons_append, splitNN.eq_1, splitNN.eq_1, ih]
      rcases hsp : splitNN rest with _ | ⟨p, ps⟩
      · exact absurd hsp (splitNN_ne_nil rest)
      · rcases ps with _ | ⟨q, qs⟩
        · simp
        · simp
  | case2 =>
      rw [splitNN.eq_2]
      simp
  | case3 c rest hg hnil ih => exact absurd hnil (splitNN_ne_nil rest)
  | case4 c rest hg p ps hps ih =>
      rw [splitNN.eq_3 c rest hg, hps]
      rcases ps with _ | ⟨q, qs⟩
      · -- singleton: no separator in `c :: rest`; everything is the remainder
        have hp : p = rest := splitNN_singleton rest p hps
        subst hp
        simp
      · -- at least one separator inside `rest`
        have hglift : ∀ (rest_1 : List Char), c = '\n' →
            rest ++ b = '\n' :: rest_1 → False := by
          intro r1 hc hr
          rcases rest with _ | ⟨d, rest'⟩
          · rw [splitNN.eq_2] at hps
            simp at hps
          · rw [List.cons_append] at hr
            obtain ⟨hd, _⟩ := List.cons.inj hr
            exact hg rest' hc (by rw [hd])
        rw [List.cons_append, splitNN.eq_3 c (rest ++ b) hglift, ih, hps]
        rcases hsp2 : splitNN ((p :: q :: qs).getLast?.getD [] ++ b)
          with _ | ⟨u, us⟩
        · exact absurd hsp2 (splitNN_ne_nil _)
        · simp
          rw [List.getLast?_cons_cons] at hsp2
          simp [hsp2]




theorem getLast?_append_of_ne_nil' {α : Type} (l l' : List α) (h : l' ≠ []) :
    (l ++ l').getLast? = l'.getLast? := by
  rw [List.getLast?_append]
  rcases hl : l'.getLast? with _ | x
  · exact absurd (List.getLast?_eq_none_iff.mp hl) h
  · rfl

theorem sseLoop_merge (buf c1 c2 : List Char) (rest : List (List Char)) :
    sseLoop buf (c1 :: c2 :: rest) = sseLoop buf ((c1 ++ c2) :: rest) := by
  have hQ : splitNN ((splitNN (buf ++ c1)).getLast?.getD [] ++ c2) ≠ [] :=
    splitNN_ne_nil _
  rw [sseLoop, sseLoop, sseLoop]
  rw [show buf ++ (c1 ++ c2) = (buf ++ c1) ++ c2 from (List.append_assoc _ _ _).symm]
  rw [splitNN_append (buf ++ c1) c2]
  rw [List.dropLast_append_of_ne_nil _ hQ]
  rw [getLast?_append_of_ne_nil' _ _ hQ]
  rw [List.filterMap_append]
  rw [List.append_assoc]

theorem sseLoop_collapse (rest : List (List Char)) :
    ∀ (buf c : List Char),
      sseLoop buf (c :: rest) = sseLoop buf [c ++ rest.flatten] := by
  induction rest with
  | nil => intro buf c; rw [List.flatten_nil, List.append_nil]
  | cons c2 rest' ih =>
      intro buf c
      rw [sseLoop_merge buf c c2 rest', ih buf (c ++ c2), List.flatten_cons,
        List.append_assoc]


theorem sseSettle_eq_find (chunks : List (List Char)) :
    ∀ buf, sseSettle buf chunks = (sseLoop buf chunks).find? isTerminal := by
  induction chunks with
  | nil => intro buf; rfl
  | cons c rest ih =>
      intro buf
      rw [sseSettle, sseLoop, List.find?_append]
      rcases hf : ((splitNN (buf ++ c)).dropLast.filterMap
          processBlock).find? isTerminal with _ | ev
      · simp only [hf, Option.none_or]
        exact ih _
      · simp only [hf, Option.or]

/-- A single threaded call, relative to the one-shot scans: if the
incoming `lastParsedIndex` is the one a from-scratch call on the prefix
buffer `b` would leave, then the call on the grown buffer `b'` emits
exactly the raw candidates that the from-scratch scan of `b'` appends
after those of `b`, and leaves the from-scratch `lastParsedIndex` of `b'`. -/
theorem extract_raw_step (parse : List Char → Option Json) (now : Nat)
    (b b' : String) (tch : List Char) (hext : b'.data = b.data ++ tch)
    (st : ParseState) (hlpi : st.lastParsedIndex = (oneshotRaw parse b).2) :
    ∃ r2,
      (extractCompleteModules parse now b' st).1 =
        mapIdxFrom (fun k mj => injectTempId now k mj) 0 r2 ∧
      (oneshotRaw parse b').1 = (oneshotRaw parse b).1 ++ r2 ∧
      (extractCompleteModules parse now b' st).2.lastParsedIndex =
        (oneshotRaw parse b').2 := by
  rcases hm' : findMarker b'.data with _ | m'
  · -- no marker in b', hence none in b
    have hmb : findMarker b.data = none := by
      rcases hmb : findMarker b.data with _ | m
      · rfl
      · exfalso
        have := findMarker_append b.data tch m hmb
        rw [← hext, hm'] at this
        exact Option.noConfusion this
    refine ⟨[], ?_, ?_, ?_⟩
    · simp [extractCompleteModules, hm', mapIdxFrom]
    · simp [oneshotRaw, hm', hmb]
    · simp only [extractCompleteModules, hm']
      rw [hlpi]
      simp [oneshotRaw, hmb, hm']
  · rcases hmb : findMarker b.data with _ | m
    · -- marker appears for the first time in b'
      have hzero : st.lastParsedIndex = 0 := by
        rw [hlpi]; unfold oneshotRaw; rw [hmb]
      refine ⟨(scanFull parse (b'.data.drop m') 0).1, ?_, ?_, ?_⟩
      · simp only [extractCompleteModules, hm', hzero]
      · simp [oneshotRaw, hm', hmb]
      · simp only [extractCompleteModules, oneshotRaw, hm', hzero]
    · -- marker present in both: the scans compose
      have hmm : m' = m := by
        have := findMarker_append b.data tch m hmb
        rw [← hext, hm'] at this
        exact Option.some.inj this
      subst hmm
      have hmle : m' ≤ b.data.length := findMarker_le_length b.data m' hmb
      have hrem : b'.data.drop m' = b.data.drop m' ++ tch := by
        rw [hext]
        exact List.drop_append_of_le_length hmle
      have hcomp := scanFull_compose parse (b.data.drop m') tch 0 (by omega)
      rw [← hrem] at hcomp
      have hlpi' : st.lastParsedIndex = (scanFull parse (b.data.drop m') 0).2.1 := by
        rw [hlpi]; unfold oneshotRaw; rw [hmb]
      refine ⟨(scanFull parse (b'.data.drop m') (scanFull parse (b.data.drop m') 0).2.1).1,
        ?_, ?_, ?_⟩
      · simp only [extractCompleteModules, hm', hlpi']
      · simp only [oneshotRaw, hm', hmb]
        rw [hcomp]
      · simp only [extractCompleteModules, oneshotRaw, hm', hlpi']
        rw [hcomp]




theorem extract_initial_erased (parse : List Char → Option Json) (now : Nat)
    (b : String) :
    (extractCompleteModules parse now b initialParseState).1.map eraseId =
      (oneshotRaw parse b).1.map eraseId := by
  rcases hm : findMarker b.data with _ | m
  · simp [extractCompleteModules, oneshotRaw, hm]
  · simp only [extractCompleteModules, oneshotRaw, hm, initialParseState]
    rw [mapIdxFrom_map_eraseId]

theorem runExtractor_aux (parse : List Char → Option Json) :
    ∀ (steps : List (Nat × String)) (prev : String) (acc : List Json)
      (st : ParseState),
      List.Chain' (fun x y : String => x.data <+: y.data)
        (prev :: steps.map (·.2)) →
      st.lastParsedIndex = (oneshotRaw parse prev).2 →
      acc.map eraseId = (oneshotRaw parse prev).1.map eraseId →
      (steps.foldl
        (fun acc step =>
          ((acc.1 ++ (extractCompleteModules parse step.1 step.2 acc.2).1),
           (extractCompleteModules parse step.1 step.2 acc.2).2))
        (acc, st)).1.map eraseId =
        (oneshotRaw parse ((steps.map (·.2)).getLastD prev)).1.map eraseId := by
  intro steps
  induction steps with
  | nil =>
      intro prev acc st hchain hlpi hacc
      simpa using hacc
  | cons step rest ih =>
      intro prev acc st hchain hlpi hacc
      rcases step with ⟨now, b⟩
      simp only [List.map_cons, List.chain'_cons] at hchain
      obtain ⟨hpre, hchain'⟩ := hchain
      obtain ⟨tch, htch⟩ := hpre
      obtain ⟨r2, he1, he2, he3⟩ :=
        extract_raw_step parse now prev b tch htch.symm st hlpi
      simp only [List.foldl_cons]
      have hstep := ih b (acc ++ (extractCompleteModules parse now b st).1)
        (extractCompleteModules parse now b st).2 hchain' he3
        (by
          rw [List.map_append, hacc, he1, mapIdxFrom_map_eraseId, he2,
            List.map_append])
      rw [List.map_cons, List.getLastD_cons]
      exact hstep




theorem getLastD_map_ne {α β : Type} (f : α → β) (l : List α) (h : l ≠ [])
    (d : β) : (l.map f).getLastD d = f (l.getLast h) := by
  induction l generalizing d with
  | nil => cases h rfl
  | cons a l ih =>
      cases l with
      | nil => simp
      | cons b l' =>
          rw [List.map_cons, List.getLastD_cons, List.getLast_cons (by simp)]
          exact ih (by simp) _

/-! ## Claim theorems

Each theorem below settles one claim of the specification review; the
witnesses instantiate the quantified theorems at concrete inputs, and
the counterexample theorems evaluate the code at inputs that refute a
claim as originally stated. -/

/-- C5: applying any update/delete intent whose targeted identifier —
or an ancestor identifier on the targeted path — does not occur in the
tree returns a tree equal to the input: a complete no-op, with no
partial application and no error. -/
theorem reducer_noop_when_target_missing (gid : String) (c : Curriculum)
    (a : CurriculumAction) (h : targetsMissing c a) :
    curriculumReducer gid c a = c := by
  cases a with
  | setCurriculum p => exact absurd h (by simp [targetsMissing])
  | resetForProgressive => exact absurd h (by simp [targetsMissing])
  | addProgressiveModule p => exact absurd h (by simp [targetsMissing])
  | updateCurriculumTitle p => exact absurd h (by simp [targetsMissing])
  | updateCurriculumDescription p => exact absurd h (by simp [targetsMissing])
  | addModule => exact absurd h (by simp [targetsMissing])
  | addTopic p => exact absurd h (by simp [targetsMissing])
  | addLesson p q => exact absurd h (by simp [targetsMissing])
  | updateModule mid t? d? =>
      have hmap := map_eq_self_of c.modules
        (fun m => if m.id = mid then
          { m with title := t?.getD m.title,
                   description := d?.getD m.description } else m)
        (fun m hm => if_neg (h m hm))
      simp only [curriculumReducer, hmap]
  | deleteModule mid =>
      have hf := filter_eq_self_of c.modules (fun m => m.id ≠ mid)
        (fun m hm => by simpa using h m hm)
      simp only [curriculumReducer, hf]
  | updateTopic mid tid t? d? =>
      rcases h with h | h
      · have hmap := map_eq_self_of c.modules
          (fun m => if m.id = mid then
            { m with topics := m.topics.map fun t =>
              if t.id = tid then
                { t with title := t?.getD t.title,
                         description := d?.getD t.description } else t }
            else m)
          (fun m hm => if_neg (h m hm))
        simp only [curriculumReducer, hmap]
      · have hmap := map_eq_self_of c.modules
          (fun m => if m.id = mid then
            { m with topics := m.topics.map fun t =>
              if t.id = tid then
                { t with title := t?.getD t.title,
                         description := d?.getD t.description } else t }
            else m)
          (fun m hm => by
            dsimp only
            by_cases hmid : m.id = mid
            · rw [if_pos hmid, updateTopic_noop_inner tid t? d? m (h m hm)]
            · exact if_neg hmid)
        simp only [curriculumReducer, hmap]
  | deleteTopic mid tid =>
      rcases h with h | h
      · have hmap := map_eq_self_of c.modules
          (fun m => if m.id = mid then
            { m with topics := m.topics.filter fun t => t.id ≠ tid }
            else m)
          (fun m hm => if_neg (h m hm))
        simp only [curriculumReducer, hmap]
      · have hmap := map_eq_self_of c.modules
          (fun m => if m.id = mid then
            { m with topics := m.topics.filter fun t => t.id ≠ tid }
            else m)
          (fun m hm => by
            dsimp only
            by_cases hmid : m.id = mid
            · rw [if_pos hmid,
                filter_eq_self_of m.topics _ (fun t ht => by simpa using h m hm t ht)]
            · exact if_neg hmid)
        simp only [curriculumReducer, hmap]
  | updateLesson mid tid lid t? d? =>
      rcases h with h | h | h
      · have hmap := map_eq_self_of c.modules
          (fun m => if m.id = mid then
            { m with topics := m.topics.map fun t =>
              if t.id = tid then
                { t with lessons := t.lessons.map fun l =>
                  if l.id = lid then
                    { l with title := t?.getD l.title,
                             description := d?.getD l.description } else l }
                else t }
            else m)
          (fun m hm => if_neg (h m hm))
        simp only [curriculumReducer, hmap]
      · have hmap := map_eq_self_of c.modules
          (fun m => if m.id = mid then
            { m with topics := m.topics.map fun t =>
              if t.id = tid then
                { t with lessons := t.lessons.map fun l =>
                  if l.id = lid then
                    { l with title := t?.getD l.title,
                             description := d?.getD l.description } else l }
                else t }
            else m)
          (fun m hm => by
            dsimp only
            by_cases hmid : m.id = mid
            · rw [if_pos hmid,
                map_eq_self_of m.topics _ (fun t ht => if_neg (h m hm t ht))]
            · exact if_neg hmid)
        simp only [curriculumReducer, hmap]
      · have hmap := map_eq_self_of c.modules
          (fun m => if m.id = mid then
            { m with topics := m.topics.map fun t =>
              if t.id = tid then
                { t with lessons := t.lessons.map fun l =>
                  if l.id = lid then
                    { l with title := t?.getD l.title,
                             description := d?.getD l.description } else l }
                else t }
            else m)
          (fun m hm => by
            dsimp only
            by_cases hmid : m.id = mid
            · rw [if_pos hmid]
              have : (m.topics.map fun t =>
                if t.id = tid then
                  { t with lessons := t.lessons.map fun l =>
                    if l.id = lid then
                      { l with title := t?.getD l.title,
                               description := d?.getD l.description } else l }
                  else t) = m.topics :=
                map_eq_self_of _ _ (fun t ht => by
                  by_cases htid : t.id = tid
                  · rw [if_pos htid,
                      map_eq_self_of t.lessons _ (fun l hl => if_neg (h m hm t ht l hl))]
                  · exact if_neg htid)
              rw [this]
            · exact if_neg hmid)
        simp only [curriculumReducer, hmap]
  | deleteLesson mid tid lid =>
      rcases h with h | h | h
      · have hmap := map_eq_self_of c.modules
          (fun m => if m.id = mid then
            { m with topics := m.topics.map fun t =>
              if t.id = tid then
                { t with lessons := t.lessons.filter fun l => l.id ≠ lid }
                else t }
            else m)
          (fun m hm => if_neg (h m hm))
        simp only [curriculumReducer, hmap]
      · have hmap := map_eq_self_of c.modules
          (fun m => if m.id = mid then
            { m with topics := m.topics.map fun t =>
              if t.id = tid then
                { t with lessons := t.lessons.filter fun l => l.id ≠ lid }
                else t }
            else m)
          (fun m hm => by
            dsimp only
            by_cases hmid : m.id = mid
            · rw [if_pos hmid,
                map_eq_self_of m.topics _ (fun t ht => if_neg (h m hm t ht))]
            · exact if_neg hmid)
        simp only [curriculumReducer, hmap]
      · have hmap := map_eq_self_of c.modules
          (fun m => if m.id = mid then
            { m with topics := m.topics.map fun t =>
              if t.id = tid then
                { t with lessons := t.lessons.filter fun l => l.id ≠ lid }
                else t }
            else m)
          (fun m hm => by
            dsimp only
            by_cases hmid : m.id = mid
            · rw [if_pos hmid]
              have : (m.topics.map fun t =>
                if t.id = tid then
                  { t with lessons := t.lessons.filter fun l => l.id ≠ lid }
                  else t) = m.topics :=
                map_eq_self_of _ _ (fun t ht => by
                  by_cases htid : t.id = tid
                  · rw [if_pos htid,
                      filter_eq_self_of t.lessons _
                        (fun l hl => by simpa using h m hm t ht l hl)]
                  · exact if_neg htid)
              rw [this]
            · exact if_neg hmid)
        simp only [curriculumReducer, hmap]

/-- Witness for C5: updating a module identifier that is absent from a
concrete one-module tree leaves the tree unchanged. -/
theorem reducer_noop_when_target_missing_witness :
    curriculumReducer "gid"
      ⟨"c1", "T", "D", [⟨"m1", "Module 1", "", []⟩]⟩
      (CurriculumAction.updateModule "zz" (some "X") none) =
    ⟨"c1", "T", "D", [⟨"m1", "Module 1", "", []⟩]⟩ :=
  reducer_noop_when_target_missing "gid" _ _
    (by intro m hm; obtain rfl := List.mem_singleton.mp hm; decide)

/-- C6: dispatching three ADD_MODULE intents in sequence to the reducer,
starting from a tree with no modules and with arbitrary topic/lesson
deletions ("deletions elsewhere in the tree") interleaved before each
add, yields three modules titled "Module 1", "Module 2", "Module 3" in
that exact order. -/
theorem add_three_modules_default_titles
    (c : Curriculum) (hc : c.modules = [])
    (ds1 ds2 ds3 : List (String × CurriculumAction))
    (h1 : ∀ p ∈ ds1, isSubDeletion p.2)
    (h2 : ∀ p ∈ ds2, isSubDeletion p.2)
    (h3 : ∀ p ∈ ds3, isSubDeletion p.2)
    (g1 g2 g3 : String) :
    (applyActions (ds1 ++ [(g1, .addModule)] ++ ds2 ++ [(g2, .addModule)]
        ++ ds3 ++ [(g3, .addModule)]) c).modules.map Module.title =
      ["Module 1", "Module 2", "Module 3"] := by
  have hsplit : applyActions (ds1 ++ [(g1, .addModule)] ++ ds2
      ++ [(g2, .addModule)] ++ ds3 ++ [(g3, .addModule)]) c =
      curriculumReducer g3 (applyActions ds3
        (curriculumReducer g2 (applyActions ds2
          (curriculumReducer g1 (applyActions ds1 c) .addModule))
          .addModule)) .addModule := by
    simp only [applyActions, List.foldl_append, List.foldl_cons, List.foldl_nil]
  rw [hsplit]
  have s1 := delete_then_add_titles c ds1 h1 g1 [] (by rw [hc]; rfl)
  have s2 := delete_then_add_titles _ ds2 h2 g2 _ s1
  have s3 := delete_then_add_titles _ ds3 h3 g3 _ s2
  rw [s3]
  rfl

/-- Witness for C6: a concrete run with a topic deletion before the
first add and a lesson deletion before the third. -/
theorem add_three_modules_default_titles_witness :
    (applyActions ([("x", CurriculumAction.deleteTopic "m" "t")] ++
        [("g1", CurriculumAction.addModule)] ++ [] ++
        [("g2", CurriculumAction.addModule)] ++
        [("y", CurriculumAction.deleteLesson "m" "t" "l")] ++
        [("g3", CurriculumAction.addModule)])
      ⟨"id0", "", "", []⟩).modules.map Module.title =
      ["Module 1", "Module 2", "Module 3"] :=
  add_three_modules_default_titles ⟨"id0", "", "", []⟩ rfl
    [("x", CurriculumAction.deleteTopic "m" "t")] []
    [("y", CurriculumAction.deleteLesson "m" "t" "l")]
    (by intro p hp; obtain rfl := List.mem_singleton.mp hp; trivial)
    (by intro p hp; exact absurd hp (List.not_mem_nil p))
    (by intro p hp; obtain rfl := List.mem_singleton.mp hp; trivial)
    "g1" "g2" "g3"

/-- C7: deleting a module removes exactly that module together with its
whole subtree of topics and lessons; the sibling modules before and
after it — identifiers and entire subtrees — and the root's other
fields are untouched. -/
theorem delete_module_removes_exactly_target (gid : String) (c : Curriculum)
    (mid : String) (pre post : List Module) (m : Module)
    (hsplit : c.modules = pre ++ m :: post)
    (hm : m.id = mid)
    (hpre : ∀ x ∈ pre, x.id ≠ mid) (hpost : ∀ x ∈ post, x.id ≠ mid) :
    curriculumReducer gid c (.deleteModule mid) =
      { c with modules := pre ++ post } := by
  simp only [curriculumReducer, hsplit, List.filter_append, List.filter_cons]
  rw [filter_eq_self_of pre _ (fun x hx => by simpa using hpre x hx),
    filter_eq_self_of post _ (fun x hx => by simpa using hpost x hx)]
  simp [hm]

/-- Witness for C7: deleting the middle module of a three-module tree,
where the deleted module has one topic with one lesson. -/
theorem delete_module_removes_exactly_target_witness :
    curriculumReducer "g"
      ⟨"c", "", "", [⟨"a", "A", "", []⟩,
        ⟨"b", "B", "", [⟨"t1", "T1", "", [⟨"l1", "L1", ""⟩]⟩]⟩,
        ⟨"cc", "C", "", []⟩]⟩
      (CurriculumAction.deleteModule "b") =
    ⟨"c", "", "", [⟨"a", "A", "", []⟩, ⟨"cc", "C", "", []⟩]⟩ :=
  delete_module_removes_exactly_target "g" _ "b"
    [⟨"a", "A", "", []⟩] [⟨"cc", "C", "", []⟩]
    ⟨"b", "B", "", [⟨"t1", "T1", "", [⟨"l1", "L1", ""⟩]⟩]⟩
    rfl rfl
    (by intro x hx; obtain rfl := List.mem_singleton.mp hx; decide)
    (by intro x hx; obtain rfl := List.mem_singleton.mp hx; decide)

/-- C1 (amended): for every chain of strictly growing buffers, calling
extractCompleteModules on each buffer in turn while threading the
returned parse state yields, concatenated in call order, the same
module objects as one call on the final buffer — up to the synthesized
temporary ids, which depend on the per-call Date.now() value and
per-call index. -/
theorem extractor_incremental_matches_one_shot
    (steps : List (Nat × String)) (hne : steps ≠ [])
    (hchain : List.Chain' (fun x y : Nat × String =>
        x.2.data ≠ y.2.data ∧ x.2.data <+: y.2.data) steps)
    (now0 : Nat) :
    (runExtractor jsonParseChars steps).1.map eraseId =
      ((extractCompleteModules jsonParseChars now0 (steps.getLast hne).2
        initialParseState).1).map eraseId := by
  have hmap : List.Chain' (fun x y : String => x.data <+: y.data)
      (steps.map (·.2)) := by
    rw [List.chain'_map]
    exact hchain.imp fun a b h => h.2
  have hchain2 : List.Chain' (fun x y : String => x.data <+: y.data)
      ("" :: steps.map (·.2)) := by
    cases steps with
    | nil => simp
    | cons s rest =>
        rw [List.map_cons, List.chain'_cons]
        exact ⟨by simp, by simpa using hmap⟩
  have haux := runExtractor_aux jsonParseChars steps "" [] initialParseState
    hchain2 rfl rfl
  rw [extract_initial_erased]
  rw [show (steps.getLast hne).2 = (steps.map (·.2)).getLastD "" from
    (getLastD_map_ne (·.2) steps hne "").symm]
  exact haux

/-- Witness for C1: a two-call chain (truncated buffer, then the
completed document) produces the same erased modules as a single call
on the final buffer. -/
theorem extractor_incremental_matches_one_shot_witness :
    (runExtractor jsonParseChars
      [(5, "\x7b\"modules\":[\x7b\"title\":\"M1\",\"description\":\"d1\",\"topics\":[]"),
       (7, "\x7b\"modules\":[\x7b\"title\":\"M1\",\"description\":\"d1\",\"topics\":[]\x7d]\x7d")]).1.map
        eraseId =
      ((extractCompleteModules jsonParseChars 3
        "\x7b\"modules\":[\x7b\"title\":\"M1\",\"description\":\"d1\",\"topics\":[]\x7d]\x7d"
        initialParseState).1).map eraseId := by
  have h := extractor_incremental_matches_one_shot
    [(5, "\x7b\"modules\":[\x7b\"title\":\"M1\",\"description\":\"d1\",\"topics\":[]"),
     (7, "\x7b\"modules\":[\x7b\"title\":\"M1\",\"description\":\"d1\",\"topics\":[]\x7d]\x7d")]
    (by simp)
    (by
      rw [List.chain'_cons]
      refine ⟨⟨by decide, ⟨"\x7d]\x7d".data, rfl⟩⟩, List.chain'_singleton _⟩)
    3
  exact h

/-- Counterexample to C1 as stated: the scanner also emits objects that
close after the modules array (here the value of the sibling key "x"),
so the concatenated emissions are not always exactly the parsed modules
array of the final complete document. -/
theorem extractor_collects_trailing_object :
    (jsonParse "\x7b\"modules\":[],\"x\":\x7b\x7d\x7d").isSome = true ∧
      ((runExtractor jsonParseChars
        [(5, "\x7b\"modules\":[],\"x\":\x7b\x7d\x7d")]).1).length = 1 ∧
      (parsedModules "\x7b\"modules\":[],\"x\":\x7b\x7d\x7d").length = 0 :=
  ⟨rfl, rfl, rfl⟩

/-- C2 (amended): on the truncated buffer that stops right before the
module object's closing brace the first call returns zero objects;
appending the closing text and calling again with the returned state
returns exactly one object, whose title is "M1". -/
theorem extractor_round_trip (now1 now2 : Nat) :
    (extractCompleteModules jsonParseChars now1
      "\x7b\"modules\":[\x7b\"title\":\"M1\",\"description\":\"d1\",\"topics\":[]"
      initialParseState).1 = [] ∧
    ((extractCompleteModules jsonParseChars now2
      "\x7b\"modules\":[\x7b\"title\":\"M1\",\"description\":\"d1\",\"topics\":[]\x7d]\x7d"
      (extractCompleteModules jsonParseChars now1
        "\x7b\"modules\":[\x7b\"title\":\"M1\",\"description\":\"d1\",\"topics\":[]"
        initialParseState).2).1).length = 1 ∧
    ((extractCompleteModules jsonParseChars now2
      "\x7b\"modules\":[\x7b\"title\":\"M1\",\"description\":\"d1\",\"topics\":[]\x7d]\x7d"
      (extractCompleteModules jsonParseChars now1
        "\x7b\"modules\":[\x7b\"title\":\"M1\",\"description\":\"d1\",\"topics\":[]"
        initialParseState).2).1).map (fun mj =>
          match mj with
          | Json.obj fields => getField fields "title"
          | _ => none) = [some (Json.str "M1")] :=
  ⟨rfl, rfl, rfl⟩

/-- Counterexample to C2 as stated: the claim's first buffer already
ends with the module object's closing brace, so the first call returns
one object, not zero, and the second call (after appending the claimed
continuation) returns zero objects, not one. -/
theorem extractor_round_trip_on_closed_buffer :
    ((extractCompleteModules jsonParseChars 5
      "\x7b\"modules\":[\x7b\"title\":\"M1\",\"description\":\"d1\",\"topics\":[]\x7d"
      initialParseState).1).length = 1 ∧
    ((extractCompleteModules jsonParseChars 7
      "\x7b\"modules\":[\x7b\"title\":\"M1\",\"description\":\"d1\",\"topics\":[]\x7d\x7d]\x7d"
      (extractCompleteModules jsonParseChars 5
        "\x7b\"modules\":[\x7b\"title\":\"M1\",\"description\":\"d1\",\"topics\":[]\x7d"
        initialParseState).2).1).length = 0 :=
  ⟨rfl, rfl⟩

/-- C3: when a second call receives a buffer extending the first call's
buffer together with the state the first call returned, the returned
lastParsedIndex never decreases. -/
theorem lastParsedIndex_monotone (now now' : Nat) (b b' : String)
    (st : ParseState) (hgrow : b.data <+: b'.data) :
    (extractCompleteModules jsonParseChars now b st).2.lastParsedIndex ≤
      (extractCompleteModules jsonParseChars now' b'
        (extractCompleteModules jsonParseChars now b st).2).2.lastParsedIndex :=
  extract_lpi_ge jsonParseChars now' b' _

/-- Witness for C3: a concrete growing pair of buffers. -/
theorem lastParsedIndex_monotone_witness :
    (extractCompleteModules jsonParseChars 1 "a"
        initialParseState).2.lastParsedIndex ≤
      (extractCompleteModules jsonParseChars 2 "ab"
        (extractCompleteModules jsonParseChars 1 "a"
          initialParseState).2).2.lastParsedIndex :=
  lastParsedIndex_monotone 1 2 "a" "ab" initialParseState ⟨"b".data, rfl⟩

/-- C4: estimateProgress always lies in [0, 95] (hence is never 100),
and is exactly 0 when the buffer has no modules-array marker. -/
theorem estimateProgress_bounds (s : String) :
    0 ≤ estimateProgress s ∧ estimateProgress s ≤ 95 ∧
      estimateProgress s ≠ 100 ∧
      (findMarker s.data = none → estimateProgress s = 0) := by
  rcases hm : findMarker s.data with _ | m
  · refine ⟨by simp [estimateProgress, hm], by simp [estimateProgress, hm], ?_, ?_⟩
    · simp [estimateProgress, hm]
    · intro _; simp [estimateProgress, hm]
  · have hnonneg : (0 : ℚ) ≤ estimateProgress s := by
      simp only [estimateProgress, hm]
      apply le_min
      · norm_num
      · positivity
    have hle : estimateProgress s ≤ 95 := by
      simp only [estimateProgress, hm]
      exact min_le_left _ _
    refine ⟨hnonneg, hle, by intro h; rw [h] at hle; norm_num at hle, ?_⟩
    intro hcontra
    exact absurd hcontra (by simp)

/-- Witness for C4: the empty string has no marker and gets progress 0. -/
theorem estimateProgress_bounds_witness :
    estimateProgress "" = 0 :=
  (estimateProgress_bounds "").2.2.2 rfl

/-- C8: for every partition of the SSE body into read chunks — including
partitions that split a message block mid-line — the buffering read loop
dispatches exactly the same sequence of events as one single read of the
whole body. -/
theorem sse_chunking_invariant (chunks : List (List Char)) :
    sseEvents chunks = sseEvents [chunks.flatten] := by
  rcases chunks with _ | ⟨c, rest⟩
  · rw [sseEvents, sseEvents, List.flatten_nil]
    show ([] : List SseEvent) = _
    rw [sseLoop]
    rw [show ([] ++ ([] : List Char)) = ([] : List Char) from rfl]
    rw [show splitNN [] = [[]] from rfl]
    simp [sseLoop]
  · exact sseLoop_collapse rest [] c

/-- C9 (amended): parseCompleteJSON is exactly JSON.parse applied to the
selected text (the fenced block's inner content when a fence is present,
the raw input otherwise, cut from the first brace to the last brace when
both occur); it fails if and only if that parse fails — but the parse
can succeed on non-object text, so "no valid JSON object" is not
equivalent to an error. -/
theorem parseCompleteJSON_eq_spec (s : String) :
    parseCompleteJSON s = jsonParseChars (specSelectedText s) := by
  unfold parseCompleteJSON specSelectedText
  rcases hf : findFence s.data with _ | inner
  · simp only [hf]
    by_cases hmem : ('{' ∈ s.data) ∧ ('}' ∈ s.data)
    · rw [if_pos hmem]
    · rw [if_neg hmem]
      rcases h1 : firstIndexOf s.data '{' with _ | a
      · simp only [h1]
      · rcases h2 : lastIndexOf s.data '}' with _ | b
        · simp only [h1, h2]
        · exact absurd ⟨(firstIndexOf_isSome_iff s.data '{').mp (by rw [h1]; rfl),
            (lastIndexOf_isSome_iff s.data '}').mp (by rw [h2]; rfl)⟩ hmem
  · simp only [hf]
    by_cases hmem : ('{' ∈ inner) ∧ ('}' ∈ inner)
    · rw [if_pos hmem]
    · rw [if_neg hmem]
      rcases h1 : firstIndexOf inner '{' with _ | a
      · simp only [h1]
      · rcases h2 : lastIndexOf inner '}' with _ | b
        · simp only [h1, h2]
        · exact absurd ⟨(firstIndexOf_isSome_iff inner '{').mp (by rw [h1]; rfl),
            (lastIndexOf_isSome_iff inner '}').mp (by rw [h2]; rfl)⟩ hmem

/-- Counterexample to C9 as stated: on the input "42" no brace occurs,
the raw text is parsed as the number 42, and the function succeeds even
though no JSON object can be extracted — so it does not signal an error
exactly when no valid JSON object is available. -/
theorem parseCompleteJSON_succeeds_without_object :
    parseCompleteJSON "42" = some (Json.num "42") ∧
      Json.isObj (Json.num "42") = false ∧ ('{' ∈ "42".data) = False := by
  refine ⟨by rfl, by rfl, by simp⟩

/-- C10: when the reader reports done before any complete or error block
was dispatched, the promise never settles — the loop just breaks and no
code after it resolves or rejects. -/
theorem stream_never_settles (chunks : List (List Char))
    (h : ∀ e ∈ sseEvents chunks, isTerminal e = false) :
    sseOutcome chunks = none := by
  rw [sseOutcome, sseSettle_eq_find]
  rw [List.find?_eq_none]
  intro x hx
  rw [h x hx]
  simp

/-- Witness for C10: a body holding one progress block and then ending
leaves the promise unsettled. -/
theorem stream_never_settles_witness :
    sseOutcome ["event: progress\ndata: \x7b\"status\":\"x\"\x7d\n\n".data] = none :=
  stream_never_settles _ (by
    intro e he
    rw [show sseEvents ["event: progress\ndata: \x7b\"status\":\"x\"\x7d\n\n".data] =
      [SseEvent.progress (some (Json.str "x")) none] from rfl] at he
    obtain rfl := List.mem_singleton.mp he
    rfl)

end LingoCare
